import Mathlib

/-!
Verification of the container-DB layer of `iconservice`
(`iconservice/iconscore/icon_container_db.py`).

Bytes are modelled as `List Nat` (each entry a byte value).  Python strings
are represented by their UTF-8 code-unit sequences, and addresses by their
fixed-width byte bodies, so that the string/address codecs (identity maps on
those sequences) are faithful to `str.encode('utf-8')` / `Address.to_bytes`.

The integer codec `int_to_bytes` / `bytes_to_int` lives in
`iconservice/utils/__init__.py`, which is outside the provided sources; it is
modelled from the spec ("minimal two's-complement big-endian bytes") and
pinned by the repository's own unit tests
(`tests/legacy_unittest/test_utils.py::test_int_to_bytes`,
`test_byte_length_of_int`).
-/

namespace IconDB

/-- Byte strings: lists of byte values. -/
abbrev Bytes := List Nat

/-- Big-endian value of a byte string, read as an unsigned integer
(place-value interpretation used by `int.from_bytes(..., "big")`). -/
def bytesToNat : Bytes → Nat
  | [] => 0
  | b :: rest => b * 256 ^ rest.length + bytesToNat rest

/-- Modelled from the spec: Python's `int.bit_length` on a natural number. -/
def bit_length (n : Nat) : Nat :=
  if n = 0 then 0 else bit_length (n / 2) + 1
decreasing_by exact Nat.div_lt_self (Nat.pos_of_ne_zero (by assumption)) (by omega)

/-- Modelled from the spec: `iconservice.utils.byte_length_of_int`, pinned by
`test_byte_length_of_int`.  For a negative `n` Python first adds one and then
takes the bit length of the absolute value. -/
def byte_length_of_int (n : Int) : Nat :=
  bit_length (if n < 0 then (n + 1).natAbs else n.natAbs) / 8 + 1

/-- Big-endian byte string of `x` padded/truncated to exactly `L` bytes
(the semantics of Python's `x.to_bytes(L, "big")` for `x < 256^L`). -/
def natToBytesBE (x : Nat) : Nat → Bytes
  | 0 => []
  | L + 1 => (x / 256 ^ L) % 256 :: natToBytesBE (x % 256 ^ L) L

/-- Modelled from the spec: `iconservice.utils.int_to_bytes`, i.e.
`v.to_bytes(byte_length_of_int(v), "big", signed=True)` — the minimal
two's-complement big-endian encoding of `n`. -/
def int_to_bytes (n : Int) : Bytes :=
  natToBytesBE (n % ((2 : Int) ^ (8 * byte_length_of_int n))).toNat
    (byte_length_of_int n)

/-- Modelled from the spec: `iconservice.utils.bytes_to_int`, i.e.
`int.from_bytes(v, "big", signed=True)`. -/
def bytes_to_int (b : Bytes) : Int :=
  if b.headD 0 < 0x80 then (bytesToNat b : Int)
  else (bytesToNat b : Int) - 2 ^ (8 * b.length)

/-- Source `rlp_get_bytes` (icon_container_db.py, lines 44-48): big-endian
minimal byte representation of a non-negative length. -/
def rlp_get_bytes (x : Nat) : Bytes :=
  if x = 0 then [] else rlp_get_bytes (x / 256) ++ [x % 256]
decreasing_by exact Nat.div_lt_self (Nat.pos_of_ne_zero (by assumption)) (by omega)

/-- Source `rlp_encode_bytes` (icon_container_db.py, lines 34-41). -/
def rlp_encode_bytes (b : Bytes) : Bytes :=
  if b.length = 1 ∧ b.headD 0 < 0x80 then b
  else if b.length ≤ 55 then (b.length + 0x80) :: b
  else (((rlp_get_bytes b.length).length) + 0x80 + 55) :: (rlp_get_bytes b.length ++ b)

/-- Left inverse of `rlp_encode_bytes`, used to prove the framing injective. -/
def rlp_decode (l : Bytes) : Option Bytes :=
  match l with
  | [] => none
  | c :: rest =>
    if l.length = 1 ∧ c < 0x80 then some l
    else if c ≤ 0x80 + 55 then some rest
    else some (rest.drop (c - (0x80 + 55)))

/- ### Basic facts about the integer codec -/

theorem bit_length_lt (n : Nat) : n < 2 ^ bit_length n := by
  induction n using Nat.strong_induction_on with
  | _ n ih =>
    rw [bit_length]
    split
    · simp_all
    · have h0 : n ≠ 0 := by assumption
      have hlt : n / 2 < n := Nat.div_lt_self (Nat.pos_of_ne_zero h0) (by omega)
      have := ih (n / 2) hlt
      have h2 : n / 2 < 2 ^ bit_length (n / 2) := this
      have := Nat.div_add_mod n 2
      have hm : n % 2 < 2 := Nat.mod_lt _ (by omega)
      rw [pow_succ]
      omega

theorem natToBytesBE_length (L : Nat) (x : Nat) : (natToBytesBE x L).length = L := by
  induction L generalizing x with
  | zero => rfl
  | succ L ih => simp [natToBytesBE, ih]

theorem bytesToNat_natToBytesBE (L : Nat) (x : Nat) (h : x < 256 ^ L) :
    bytesToNat (natToBytesBE x L) = x := by
  induction L generalizing x with
  | zero => simp [natToBytesBE, bytesToNat]; omega
  | succ L ih =>
    have hdiv : x / 256 ^ L < 256 := by
      have : x < 256 ^ L * 256 := by rw [← pow_succ]; exact h
      exact Nat.div_lt_of_lt_mul (by omega)
    have hmod : x % 256 ^ L < 256 ^ L := Nat.mod_lt _ (Nat.pos_pow_of_pos L (by omega))
    simp only [natToBytesBE, bytesToNat, natToBytesBE_length, ih _ hmod,
      Nat.mod_eq_of_lt hdiv]
    exact Nat.div_add_mod' x (256 ^ L)

theorem natToBytesBE_headD (L : Nat) (x : Nat) :
    (natToBytesBE x (L + 1)).headD 0 = (x / 256 ^ L) % 256 := by
  simp [natToBytesBE]

/-- The byte length chosen by `byte_length_of_int` gives room for the signed
value: `-2^(8L-1) ≤ n < 2^(8L-1)` where `L = byte_length_of_int n`. -/
theorem byte_length_bounds (n : Int) :
    -((2 : Int) ^ (8 * byte_length_of_int n - 1)) ≤ n ∧
      n < (2 : Int) ^ (8 * byte_length_of_int n - 1) := by
  unfold byte_length_of_int
  split
  · next hneg =>
    set m := (n + 1).natAbs with hm
    have hmval : (m : Int) = -(n + 1) := by rw [hm]; omega
    have hbl : m < 2 ^ bit_length m := bit_length_lt m
    have hle : bit_length m ≤ 8 * (bit_length m / 8 + 1) - 1 := by omega
    have h2 : (2 : Nat) ^ bit_length m ≤ 2 ^ (8 * (bit_length m / 8 + 1) - 1) :=
      Nat.pow_le_pow_right (by omega) hle
    have hfin : m < 2 ^ (8 * (bit_length m / 8 + 1) - 1) := lt_of_lt_of_le hbl h2
    have hcast : (m : Int) < (2 : Int) ^ (8 * (bit_length m / 8 + 1) - 1) := by
      exact_mod_cast hfin
    constructor
    · omega
    · have : n < 0 := hneg
      have hpos : (0 : Int) < (2 : Int) ^ (8 * (bit_length m / 8 + 1) - 1) := by positivity
      omega
  · next hpos =>
    have hnn : 0 ≤ n := by omega
    set m := n.natAbs with hm
    have hmval : (m : Int) = n := by rw [hm]; exact Int.natAbs_of_nonneg hnn
    have hbl : m < 2 ^ bit_length m := bit_length_lt m
    have hle : bit_length m ≤ 8 * (bit_length m / 8 + 1) - 1 := by omega
    have h2 : (2 : Nat) ^ bit_length m ≤ 2 ^ (8 * (bit_length m / 8 + 1) - 1) :=
      Nat.pow_le_pow_right (by omega) hle
    have hfin : m < 2 ^ (8 * (bit_length m / 8 + 1) - 1) := lt_of_lt_of_le hbl h2
    have hcast : (m : Int) < (2 : Int) ^ (8 * (bit_length m / 8 + 1) - 1) := by
      exact_mod_cast hfin
    constructor
    · have hpos2 : (0 : Int) < (2 : Int) ^ (8 * (bit_length m / 8 + 1) - 1) := by positivity
      omega
    · omega

/-- The integer codec round-trips: decoding (signed big-endian) the minimal
two's-complement encoding of any integer recovers it. -/
theorem bytes_to_int_int_to_bytes (n : Int) :
    bytes_to_int (int_to_bytes n) = n := by
  have hb := byte_length_bounds n
  set L := byte_length_of_int n with hLdef
  have hLpos : 0 < L := by
    rw [hLdef]; unfold byte_length_of_int; omega
  obtain ⟨M, hM⟩ : ∃ M, L = M + 1 := ⟨L - 1, by omega⟩
  have hexp : 8 * L - 1 = 8 * M + 7 := by omega
  rw [hexp] at hb
  have hpow : (2 : Nat) ^ (8 * M) = 256 ^ M := by rw [pow_mul]; norm_num
  have hpowL : (2 : Nat) ^ (8 * L) = 256 ^ M * 256 := by
    rw [hM, pow_mul, pow_succ]; norm_num
  have hpow7 : (2 : Nat) ^ (8 * M + 7) = 256 ^ M * 128 := by
    rw [pow_add, hpow]; norm_num
  have hmodpos : (0 : Int) < (2 : Int) ^ (8 * L) := by positivity
  set x : Nat := (n % ((2 : Int) ^ (8 * L))).toNat with hxdef
  have hxval : (x : Int) = n % (2 : Int) ^ (8 * L) :=
    Int.toNat_of_nonneg (Int.emod_nonneg n (by omega))
  have hitb : int_to_bytes n = natToBytesBE x L := by
    rw [int_to_bytes, ← hLdef, ← hxdef]
  have hcastL : ((2 : Nat) ^ (8 * L) : Int) = (2 : Int) ^ (8 * L) := by push_cast; ring
  have hcast7 : ((2 : Nat) ^ (8 * M + 7) : Int) = (2 : Int) ^ (8 * M + 7) := by
    push_cast; ring
  by_cases hn : 0 ≤ n
  · -- non-negative: high bit clear, unsigned branch
    have hmod : n % (2 : Int) ^ (8 * L) = n := by
      apply Int.emod_eq_of_lt hn
      calc n < (2 : Int) ^ (8 * M + 7) := hb.2
        _ ≤ (2 : Int) ^ (8 * L) := by
            apply pow_le_pow_right₀ (by norm_num) (by omega)
    have hxn : (x : Int) = n := by rw [hxval, hmod]
    have hxlt : x < 256 ^ M * 128 := by
      have : (x : Int) < (2 : Int) ^ (8 * M + 7) := by rw [hxn]; exact hb.2
      rw [← hcast7] at this
      have := Int.ofNat_lt.mp (by exact_mod_cast this)
      omega
    have hxlt2 : x < 256 ^ (M + 1) := by
      have h128 : (128 : Nat) ≤ 256 := by norm_num
      calc x < 256 ^ M * 128 := hxlt
        _ ≤ 256 ^ M * 256 := by exact Nat.mul_le_mul_left _ h128
        _ = 256 ^ (M + 1) := by rw [pow_succ]
    have hdiv : x / 256 ^ M < 128 := by
      rw [Nat.div_lt_iff_lt_mul (Nat.pos_pow_of_pos M (by norm_num))]
      omega
    have hhead : (natToBytesBE x L).headD 0 = x / 256 ^ M % 256 := by
      rw [hM]; exact natToBytesBE_headD M x
    rw [hitb, bytes_to_int, if_pos]
    · rw [hM, bytesToNat_natToBytesBE (M + 1) x hxlt2]; exact hxn
    · rw [hhead, Nat.mod_eq_of_lt (by omega)]; omega
  · -- negative: high bit set, signed branch subtracts 2^(8L)
    have hlow : -((2 : Int) ^ (8 * L)) ≤ n := by
      have : ((2 : Int) ^ (8 * M + 7)) ≤ (2 : Int) ^ (8 * L) :=
        pow_le_pow_right₀ (by norm_num) (by omega)
      have := hb.1
      omega
    have hmod : n % (2 : Int) ^ (8 * L) = n + (2 : Int) ^ (8 * L) := by
      have heq := Int.add_mul_emod_self_left (a := n) (b := (2 : Int) ^ (8 * L)) (c := 1)
      rw [mul_one] at heq
      rw [← heq]
      apply Int.emod_eq_of_lt (by omega) (by omega)
    have hxn : (x : Int) = n + (2 : Int) ^ (8 * L) := by rw [hxval, hmod]
    have hxlo : 256 ^ M * 128 ≤ x := by
      have h1 : (2 : Int) ^ (8 * M + 7) ≤ (x : Int) := by
        rw [hxn]
        have h2 : (2 : Int) ^ (8 * L) = 2 * (2 : Int) ^ (8 * M + 7) := by
          rw [← pow_succ']
          congr 1
          omega
        have := hb.1
        omega
      rw [← hcast7] at h1
      have := Int.ofNat_le.mp (by exact_mod_cast h1)
      omega
    have hxhi : x < 256 ^ M * 256 := by
      have h1 : (x : Int) < (2 : Int) ^ (8 * L) := by
        rw [hxn]; omega
      rw [← hcastL] at h1
      have := Int.ofNat_lt.mp (by exact_mod_cast h1)
      omega
    have hxlt2 : x < 256 ^ (M + 1) := by rw [pow_succ]; omega
    have hdivlo : 128 ≤ x / 256 ^ M := by
      rw [Nat.le_div_iff_mul_le (Nat.pos_pow_of_pos M (by norm_num))]
      omega
    have hdivhi : x / 256 ^ M < 256 := by
      rw [Nat.div_lt_iff_lt_mul (Nat.pos_pow_of_pos M (by norm_num))]
      omega
    have hhead : (natToBytesBE x L).headD 0 = x / 256 ^ M % 256 := by
      rw [hM]; exact natToBytesBE_headD M x
    rw [hitb, bytes_to_int, if_neg]
    · rw [hM, bytesToNat_natToBytesBE (M + 1) x hxlt2, natToBytesBE_length]
      rw [← hM]
      have : ((2 : Nat) ^ (8 * L) : Int) = (2 : Int) ^ (8 * L) := hcastL
      omega
    · rw [hhead, Nat.mod_eq_of_lt hdivhi]; omega

theorem bit_length_le (n k : Nat) (h : n < 2 ^ k) : bit_length n ≤ k := by
  induction n using Nat.strong_induction_on generalizing k with
  | _ n ih =>
    rw [bit_length]
    split
    · omega
    · next h0 =>
      have hk : k ≠ 0 := by
        intro hk0
        rw [hk0] at h
        simp at h
        omega
      have hlt : n / 2 < n := Nat.div_lt_self (Nat.pos_of_ne_zero h0) (by omega)
      have hdiv : n / 2 < 2 ^ (k - 1) := by
        have : 2 ^ k = 2 ^ (k - 1) * 2 := by
          rw [← pow_succ]
          congr 1
          omega
        omega
      have := ih (n / 2) hlt (k - 1) hdiv
      omega

/-- Evaluation principle for `bit_length` at concrete inputs (the definition
uses well-founded recursion, so this replaces kernel reduction). -/
theorem bit_length_eval (n k : Nat) (h1 : 2 ^ k ≤ n) (h2 : n < 2 ^ (k + 1)) :
    bit_length n = k + 1 := by
  refine le_antisymm (bit_length_le n (k + 1) h2) ?_
  have hlt := bit_length_lt n
  have : 2 ^ k < 2 ^ bit_length n := lt_of_le_of_lt h1 hlt
  have := (Nat.pow_lt_pow_iff_right (by omega : 1 < 2)).mp this
  omega

theorem bit_length_zero_eval : bit_length 0 = 0 := by
  rw [bit_length, if_pos rfl]

/- ### Facts about the RLP length framing -/

theorem rlp_get_bytes_nonempty (x : Nat) (h : 0 < x) : rlp_get_bytes x ≠ [] := by
  rw [rlp_get_bytes, if_neg (by omega)]
  simp

theorem bytesToNat_append_digit (l : Bytes) (d : Nat) :
    bytesToNat (l ++ [d]) = bytesToNat l * 256 + d := by
  induction l with
  | nil => simp [bytesToNat]
  | cons b rest ih =>
    simp [bytesToNat, ih, pow_succ]
    ring

theorem bytesToNat_rlp_get_bytes (x : Nat) : bytesToNat (rlp_get_bytes x) = x := by
  induction x using Nat.strong_induction_on with
  | _ x ih =>
    rw [rlp_get_bytes]
    split
    · next h => simp [bytesToNat, h]
    · next h =>
      have hlt : x / 256 < x := Nat.div_lt_self (Nat.pos_of_ne_zero h) (by omega)
      rw [bytesToNat_append_digit, ih _ hlt]
      omega

theorem rlp_get_bytes_headD (x : Nat) (h : 0 < x) : (rlp_get_bytes x).headD 0 ≠ 0 := by
  induction x using Nat.strong_induction_on with
  | _ x ih =>
    rw [rlp_get_bytes, if_neg (by omega)]
    by_cases hsmall : x / 256 = 0
    · rw [rlp_get_bytes, if_pos hsmall]
      have : x % 256 = x := Nat.mod_eq_of_lt (by omega)
      simp [this]
      omega
    · have hlt : x / 256 < x := Nat.div_lt_self h (by omega)
      have hne := rlp_get_bytes_nonempty (x / 256) (Nat.pos_of_ne_zero hsmall)
      have hh := ih (x / 256) hlt (Nat.pos_of_ne_zero hsmall)
      cases hrec : rlp_get_bytes (x / 256) with
      | nil => exact absurd hrec hne
      | cons c rest =>
        rw [hrec] at hh
        simpa using hh

/-- `rlp_decode` undoes `rlp_encode_bytes` on every input, hence the framing
is self-delimiting and injective. -/
theorem rlp_decode_encode (b : Bytes) : rlp_decode (rlp_encode_bytes b) = some b := by
  rw [rlp_encode_bytes]
  by_cases h1 : b.length = 1 ∧ b.headD 0 < 0x80
  · rw [if_pos h1]
    obtain ⟨hlen, hhd⟩ := h1
    match b, hlen with
    | [d], _ =>
      simp only [List.headD] at hhd
      rw [rlp_decode]
      simp [hhd]
  · rw [if_neg h1]
    by_cases h2 : b.length ≤ 55
    · rw [if_pos h2, rlp_decode]
      have hc : ¬ (b.length + 0x80 < 0x80) := by omega
      rw [if_neg (by simp [hc]), if_pos (by omega)]
    · rw [if_neg h2, rlp_decode]
      have hpos : 0 < b.length := by omega
      have hLpos : rlp_get_bytes b.length ≠ [] := rlp_get_bytes_nonempty _ hpos
      have hL1 : 1 ≤ (rlp_get_bytes b.length).length := by
        cases hrec : rlp_get_bytes b.length with
        | nil => exact absurd hrec hLpos
        | cons c rest => simp
      have hc : ¬ ((rlp_get_bytes b.length).length + 0x80 + 55 < 0x80) := by omega
      rw [if_neg (by simp [hc]), if_neg (by omega)]
      have hdrop : (rlp_get_bytes b.length).length + 0x80 + 55 - (0x80 + 55)
          = (rlp_get_bytes b.length).length := by omega
      rw [hdrop, List.drop_left]

theorem rlp_encode_bytes_injective : Function.Injective rlp_encode_bytes := by
  intro a b h
  have ha := rlp_decode_encode a
  have hb := rlp_decode_encode b
  rw [h] at ha
  rw [ha] at hb
  exact Option.some.inj hb

theorem rlp_encode_bytes_nonempty (b : Bytes) : rlp_encode_bytes b ≠ [] := by
  rw [rlp_encode_bytes]
  split
  · next h =>
    intro hnil
    rw [hnil] at h
    simp at h
  · split <;> simp

/-- `int_to_bytes` is injective (it has a left inverse). -/
theorem int_to_bytes_injective : Function.Injective int_to_bytes := by
  intro a b h
  have ha := bytes_to_int_int_to_bytes a
  have hb := bytes_to_int_int_to_bytes b
  rw [h] at ha
  exact ha.symm.trans hb

/- ### Concrete evaluations of the integer codec -/

theorem byte_length_of_int_ofNat (n : Nat) :
    byte_length_of_int (n : Int) = bit_length n / 8 + 1 := by
  rw [byte_length_of_int, if_neg (by omega)]
  norm_num

/-- Evaluation of `int_to_bytes` on small non-negative integers. -/
theorem int_to_bytes_small (n : Nat) (hn : n < 128) :
    int_to_bytes (n : Int) = [n] := by
  have hbl : bit_length n ≤ 7 := bit_length_le n 7 (by omega)
  have hL : byte_length_of_int (n : Int) = 1 := by
    rw [byte_length_of_int_ofNat]
    omega
  rw [int_to_bytes, hL]
  have hmod : (n : Int) % (2 : Int) ^ (8 * 1) = (n : Int) := by
    apply Int.emod_eq_of_lt (by omega)
    norm_num
    omega
  rw [hmod]
  simp [natToBytesBE]
  omega

/-- The v1-encoded form of the integer index `0x73697a65` is exactly the
UTF-8 bytes of the literal string 'size'. -/
theorem int_to_bytes_collision :
    int_to_bytes (0x73697a65 : Int) = [0x73, 0x69, 0x7a, 0x65] := by
  have hbl : bit_length 0x73697a65 = 31 :=
    bit_length_eval 0x73697a65 30 (by norm_num) (by norm_num)
  have hL : byte_length_of_int (0x73697a65 : Int) = 4 := by
    have h := byte_length_of_int_ofNat 0x73697a65
    rw [hbl] at h
    norm_num at h
    exact h
  rw [int_to_bytes, hL]
  have hmod : (0x73697a65 : Int) % (2 : Int) ^ (8 * 4) = (0x73697a65 : Int) := by
    apply Int.emod_eq_of_lt (by norm_num)
    norm_num
  rw [hmod]
  decide

/- ### Logical keys and values (the closed tagged unions of the data model) -/

/-- Modelled from the spec: fixed-width account addresses
(`iconservice/base/address.py` is outside the provided sources);
`to_bytes` / `from_bytes` are inverse maps between an address and its byte
body. -/
structure Address where
  body : Bytes
deriving DecidableEq

/-- Logical Key: tagged union {Integer, String, Address, Bytes}.  A Python
string is carried as its UTF-8 code-unit sequence. -/
inductive Key where
  | kint (i : Int)
  | kstr (s : Bytes)
  | kaddr (a : Address)
  | kbytes (b : Bytes)
deriving DecidableEq

/-- Logical Value: tagged union {Integer, String, Address, Bytes, Boolean}. -/
inductive Val where
  | vint (i : Int)
  | vstr (s : Bytes)
  | vaddr (a : Address)
  | vbytes (b : Bytes)
  | vbool (b : Bool)
deriving DecidableEq

/-- The `value_type` argument threaded through the container layer.
`tother` stands for any Python type outside the five supported kinds. -/
inductive ValueType where
  | tint
  | tstr
  | taddr
  | tbytes
  | tbool
  | tother
deriving DecidableEq

/-- The declared logical type of a value. -/
def typeOfVal : Val → ValueType
  | .vint _ => .tint
  | .vstr _ => .tstr
  | .vaddr _ => .taddr
  | .vbytes _ => .tbytes
  | .vbool _ => .tbool

/-- Source `ContainerUtil.encode_key` (lines 82-102). -/
def encode_key : Key → Bytes
  | .kint i => int_to_bytes i
  | .kstr s => s
  | .kaddr a => a.body
  | .kbytes b => b

/-- Source `ContainerUtil.encode_value` (lines 104-118).  In Python a `bool`
is an `int`, so a boolean hits the `isinstance(value, int)` branch first;
`int_to_bytes(True) = b'\x01'` and `int_to_bytes(False) = b'\x00'`, the same
bytes the later `bool` branch would produce. -/
def encode_value : Val → Bytes
  | .vint i => int_to_bytes i
  | .vstr s => s
  | .vaddr a => a.body
  | .vbytes b => b
  | .vbool b => int_to_bytes (if b then 1 else 0)

/-- Source `get_default_value` (lines 409-416). -/
def get_default_value : ValueType → Option Val
  | .tint => some (.vint 0)
  | .tstr => some (.vstr [])
  | .tbool => some (.vbool false)
  | _ => none

/-- Source `ContainerUtil.decode_object` (lines 120-136).  The `if`/`elif`
chains there split on the (distinct) type objects `int`, `str`, `Address`,
`bool`, `bytes`, so they collapse to this case split; for any other
`value_type` the local `obj_value` stays `None` and is returned. -/
def decode_object (value : Option Bytes) (t : ValueType) : Option Val :=
  match value with
  | none => get_default_value t
  | some v =>
    match t with
    | .tint => some (.vint (bytes_to_int v))
    | .tstr => some (.vstr v)
    | .taddr => some (.vaddr ⟨v⟩)
    | .tbool => some (.vbool (decide (bytes_to_int v ≠ 0)))
    | .tbytes => some (.vbytes v)
    | .tother => none

/-- Source `get_encoded_key_v1` (lines 51-52). -/
def get_encoded_key_v1 (key : Key) : Bytes := encode_key key

/-- Source `get_encoded_key_v2` (lines 55-57). -/
def get_encoded_key_v2 (key : Key) : Bytes := rlp_encode_bytes (encode_key key)

/-- The two wire-incompatible key-encoding schemes.  The source passes the
`[v1, v2]` candidate pair to the store for every key; the store resolves one
scheme per location (spec §4.2), so the embedding fixes the resolved scheme as
a parameter. -/
inductive Scheme where
  | v1
  | v2
deriving DecidableEq

/-- The encoded form of a key under the resolved scheme. -/
def encKey : Scheme → Key → Bytes
  | .v1, k => get_encoded_key_v1 k
  | .v2, k => get_encoded_key_v2 k

/- ### The underlying ordered store (spec §6), modelled from the spec -/

/-- Modelled from the spec: the Underlying Ordered Store plus its `sub_view`
namespacing.  A full key is the list of name components contributed by the
chain of sub-views followed by the final key component; `sub_view` prepends
its components.  The store is a partial map from full keys to byte values. -/
def Store : Type := List Bytes → Option Bytes

/-- A store with no data: every container region starts empty. -/
def emptyStore : Store := fun _ => none

/-- Store read. -/
def store_get (st : Store) (p : List Bytes) : Option Bytes := st p

/-- Store write. -/
def store_put (st : Store) (p : List Bytes) (v : Bytes) : Store :=
  fun q => if q = p then some v else st q

/-- Store delete. -/
def store_delete (st : Store) (p : List Bytes) : Store :=
  fun q => if q = p then none else st q

/-- Source `ARRAY_DB_ID = b'\x00'` (line 29). -/
def ARRAY_DB_ID : Bytes := [0x00]

/-- Source `DICT_DB_ID = b'\x01'` (line 30). -/
def DICT_DB_ID : Bytes := [0x01]

/-- Source `VAR_DB_ID = b'\x02'` (line 31). -/
def VAR_DB_ID : Bytes := [0x02]

/-- The error kinds raised by the layer.  `invalidIndexType` and `outOfIndex`
are the two distinct `InvalidParamsException` messages raised by
`ArrayDB._get`/`__setitem__`; `invalidAccess` is
`InvalidContainerAccessException`. -/
inductive CErr where
  | invalidIndexType
  | outOfIndex
  | invalidAccess
  | invalidParams
deriving DecidableEq

/-- The container classes accepted by `ContainerUtil.create_db_prefix`. -/
inductive ContainerClass where
  | arrayDB
  | dictDB
  | varDB
deriving DecidableEq

/-- Source `ContainerUtil.create_db_prefix` (lines 62-80), under the resolved
scheme: `[container_id, encoded var_key]`; `VarDB` is rejected. -/
def create_db_prefix (c : ContainerClass) (s : Scheme) (k : Key) :
    Except CErr (List Bytes) :=
  match c with
  | .arrayDB => .ok [ARRAY_DB_ID, encKey s k]
  | .dictDB => .ok [DICT_DB_ID, encKey s k]
  | .varDB => .error .invalidParams

/-- The region (sub-view path) of a root `ArrayDB` with the given `var_key`:
the `arrayDB` case of `create_db_prefix`. -/
def arrRegion (s : Scheme) (k : Key) : List Bytes := [ARRAY_DB_ID, encKey s k]

/- ### Key facts: injectivity and the reserved-key question -/

theorem encKey_kint_injective (s : Scheme) (x y : Int)
    (h : encKey s (.kint x) = encKey s (.kint y)) : x = y := by
  cases s with
  | v1 => exact int_to_bytes_injective h
  | v2 =>
    have := rlp_encode_bytes_injective h
    exact int_to_bytes_injective this

/-- Round-trip of the value codec: decoding an encoded value at its own
declared type recovers it. -/
theorem decode_object_encode_value (v : Val) :
    decode_object (some (encode_value v)) (typeOfVal v) = some v := by
  cases v with
  | vint i =>
    simp [encode_value, typeOfVal, decode_object, bytes_to_int_int_to_bytes]
  | vstr s => rfl
  | vaddr a => rfl
  | vbytes b => rfl
  | vbool b =>
    cases b with
    | false =>
      simp only [encode_value, typeOfVal, decode_object,
        bytes_to_int_int_to_bytes, if_neg]
      simp [bytes_to_int_int_to_bytes]
    | true =>
      simp only [encode_value, typeOfVal, decode_object]
      simp [bytes_to_int_int_to_bytes]

/- ### Store lemmas -/

theorem store_get_put_eq (st : Store) (p : List Bytes) (v : Bytes) :
    store_get (store_put st p v) p = some v := by
  simp [store_get, store_put]

theorem store_get_put_ne (st : Store) (p q : List Bytes) (v : Bytes)
    (h : q ≠ p) : store_get (store_put st p v) q = store_get st q := by
  simp [store_get, store_put, h]

theorem store_get_delete_eq (st : Store) (p : List Bytes) :
    store_get (store_delete st p) p = none := by
  simp [store_get, store_delete]

theorem store_get_delete_ne (st : Store) (p q : List Bytes)
    (h : q ≠ p) : store_get (store_delete st p) q = store_get st q := by
  simp [store_get, store_delete, h]

/- ### Sequence Container: `ArrayDB` (lines 254-367) -/

/-- An `ArrayDB` instance: its region and the cached size read at
construction time and updated by every mutating operation.  The element
`value_type` is carried alongside. -/
structure ArrayDB where
  region : List Bytes
  vt : ValueType
  size : Int
deriving DecidableEq

/-- Extracts the integer from a decoded value (Python `decode_object(.., int)`
returns the integer itself; for `tint` the decode always yields `vint`). -/
def asInt : Option Val → Int
  | some (.vint i) => i
  | _ => 0

/-- Source `ArrayDB.__SIZE_BYTE_KEY = [[get_encoded_key_v1('size')], [b'']]`
(line 263): the reserved size key component under each scheme ('size' is
UTF-8 `[0x73, 0x69, 0x7a, 0x65]`). -/
def sizeKey : Scheme → Bytes
  | .v1 => get_encoded_key_v1 (.kstr [0x73, 0x69, 0x7a, 0x65])
  | .v2 => []

/-- Source `ArrayDB.__get_size_from_db` (lines 306-307). -/
def ArrayDB.get_size_from_db (s : Scheme) (region : List Bytes) (st : Store) : Int :=
  asInt (decode_object (store_get st (region ++ [sizeKey s])) .tint)

/-- Source `ArrayDB.__init__` (lines 265-269): resolve the region from
`create_db_prefix` and cache the persisted size. -/
def ArrayDB.make (s : Scheme) (k : Key) (vt : ValueType) (st : Store) : ArrayDB :=
  { region := arrRegion s k
    vt := vt
    size := ArrayDB.get_size_from_db s (arrRegion s k) st }

/-- Source `ArrayDB.__set_size` (lines 309-312): update the cache and persist
the encoded size at the reserved key. -/
def ArrayDB.set_size (s : Scheme) (a : ArrayDB) (st : Store) (size : Int) :
    ArrayDB × Store :=
  ({ a with size := size },
   store_put st (a.region ++ [sizeKey s]) (encode_value (.vint size)))

/-- Source `ArrayDB.__put` (lines 314-317): write the encoded value at the
encoded index key. -/
def ArrayDB.put_internal (s : Scheme) (a : ArrayDB) (st : Store) (index : Int)
    (v : Val) : Store :=
  store_put st (a.region ++ [encKey s (.kint index)]) (encode_value v)

/-- Source `ArrayDB.put` (lines 271-279): append at index = size, then
persist size + 1. -/
def ArrayDB.put (s : Scheme) (a : ArrayDB) (st : Store) (v : Val) :
    ArrayDB × Store :=
  ArrayDB.set_size s a (ArrayDB.put_internal s a st a.size v) (a.size + 1)

/-- Python's `isinstance(index, int)`: `True` for `int` and for `bool`
(a Python `bool` is an `int`). -/
def isIntLike : Val → Bool
  | .vint _ => true
  | .vbool _ => true
  | _ => false

/-- The integer value of an int-like index (a Python bool reads as 0/1). -/
def intOf : Val → Int
  | .vint i => i
  | .vbool b => if b then 1 else 0
  | _ => 0

/-- Source classmethod `ArrayDB._get` (lines 349-362): reject non-integer
indices, normalize a negative index by adding the size, then bounds-check. -/
def ArrayDB.get_at (s : Scheme) (st : Store) (region : List Bytes) (size : Int)
    (index : Val) (vt : ValueType) : Except CErr (Option Val) :=
  if ¬ isIntLike index then .error .invalidIndexType
  else
    let i := if intOf index < 0 then intOf index + size else intOf index
    if 0 ≤ i ∧ i < size then
      .ok (decode_object (store_get st (region ++ [encKey s (.kint i)])) vt)
    else .error .outOfIndex

/-- Source `ArrayDB.__getitem__` / `ArrayDB.get` (lines 297-304, 340-341). -/
def ArrayDB.get (s : Scheme) (a : ArrayDB) (st : Store) (index : Val) :
    Except CErr (Option Val) :=
  ArrayDB.get_at s st a.region a.size index a.vt

/-- Source `ArrayDB.__setitem__` (lines 325-338): same index validation as
`_get`, then overwrite in place (the size is not touched). -/
def ArrayDB.setItem (s : Scheme) (a : ArrayDB) (st : Store) (index : Val)
    (v : Val) : Except CErr Store :=
  if ¬ isIntLike index then .error .invalidIndexType
  else
    let i := if intOf index < 0 then intOf index + a.size else intOf index
    if 0 ≤ i ∧ i < a.size then .ok (ArrayDB.put_internal s a st i v)
    else .error .outOfIndex

/-- Source `ArrayDB.pop` (lines 281-295): on an empty array return no value
and do not touch the store; otherwise read the last element, delete its key,
persist size - 1 and return the read value. -/
def ArrayDB.pop (s : Scheme) (a : ArrayDB) (st : Store) :
    Except CErr (Option Val × ArrayDB × Store) :=
  if a.size = 0 then .ok (none, a, st)
  else
    match ArrayDB.get_at s st a.region a.size (.vint (a.size - 1)) a.vt with
    | .error e => .error e
    | .ok last_val =>
      let st1 := store_delete st (a.region ++ [encKey s (.kint (a.size - 1))])
      let p := ArrayDB.set_size s a st1 (a.size - 1)
      .ok (last_val, p.1, p.2)

/-- Source `ArrayDB.__len__` (lines 322-323): the cached size, no store
access. -/
def ArrayDB.length (a : ArrayDB) : Int := a.size

/-- Helper: reading back a size just written. -/
theorem asInt_decode_int (n : Int) :
    asInt (decode_object (some (int_to_bytes n)) .tint) = n := by
  simp [decode_object, asInt, bytes_to_int_int_to_bytes]

theorem asInt_decode_none : asInt (decode_object none .tint) = 0 := rfl

/-- Under the v2 scheme the reserved size key (the empty byte string) never
equals an encoded index: RLP output is never empty. -/
theorem encKey_v2_ne_sizeKey (k : Key) : encKey .v2 k ≠ sizeKey .v2 := by
  simp only [encKey, get_encoded_key_v2, sizeKey]
  exact rlp_encode_bytes_nonempty _

/-- Under the v1 scheme the reserved size key `b'size'` collides with exactly
one index encoding, that of `0x73697a65`; every other integer differs. -/
theorem encKey_v1_kint_ne_sizeKey (i : Int) (h : i ≠ 0x73697a65) :
    encKey .v1 (.kint i) ≠ sizeKey .v1 := by
  simp only [encKey, get_encoded_key_v1, encode_key, sizeKey]
  intro heq
  apply h
  apply int_to_bytes_injective
  rw [heq, int_to_bytes_collision]

/- ### Sequences of append/pop operations and their list model -/

/-- An operation on a Sequence Container: `put` (append) or `pop`. -/
inductive AOp where
  | aput (v : Val)
  | apop
deriving DecidableEq

/-- One operation applied to an (array, store) state.  A failing `pop`
(impossible from any state with non-negative size) leaves the state
unchanged. -/
def arrStep (s : Scheme) (p : ArrayDB × Store) : AOp → ArrayDB × Store
  | .aput v => ArrayDB.put s p.1 p.2 v
  | .apop =>
    match ArrayDB.pop s p.1 p.2 with
    | .ok q => (q.2.1, q.2.2)
    | .error _ => p

/-- Run a sequence of operations on a fresh `ArrayDB` over an empty region. -/
def arrRun (s : Scheme) (k : Key) (vt : ValueType) (ops : List AOp) :
    ArrayDB × Store :=
  ops.foldl (arrStep s) (ArrayDB.make s k vt emptyStore, emptyStore)

/-- The reference model: the list of values currently held. -/
def modelStep (m : List Val) : AOp → List Val
  | .aput v => m ++ [v]
  | .apop => m.dropLast

def modelFold (m : List Val) (ops : List AOp) : List Val := ops.foldl modelStep m

def modelRun (ops : List AOp) : List Val := modelFold [] ops

/-- Number of appends in an operation sequence. -/
def appendCount : List AOp → Nat
  | [] => 0
  | .aput _ :: rest => appendCount rest + 1
  | .apop :: rest => appendCount rest

/-- Number of successful pops (pops hitting a non-empty sequence), starting
from model state `m`. -/
def succPopsFrom (m : List Val) : List AOp → Nat
  | [] => 0
  | .aput v :: rest => succPopsFrom (m ++ [v]) rest
  | .apop :: rest => (if m.isEmpty then 0 else 1) + succPopsFrom m.dropLast rest

def succPops (ops : List AOp) : Nat := succPopsFrom [] ops

/- ### List helper lemmas -/

theorem getD_append_lt (l l' : List Val) (i : Nat) (d : Val) (h : i < l.length) :
    (l ++ l').getD i d = l.getD i d := by
  induction l generalizing i with
  | nil => simp at h
  | cons a rest ih =>
    cases i with
    | zero => rfl
    | succ j =>
      simp only [List.cons_append, List.getD_cons_succ]
      exact ih j (by simpa using h)

theorem getD_append_len (l : List Val) (v d : Val) :
    (l ++ [v]).getD l.length d = v := by
  induction l with
  | nil => rfl
  | cons a rest ih => simp [ih]

theorem getD_dropLast (l : List Val) (i : Nat) (d : Val) (h : i + 1 < l.length) :
    l.dropLast.getD i d = l.getD i d := by
  induction l generalizing i with
  | nil => simp at h
  | cons a rest ih =>
    cases rest with
    | nil => simp at h
    | cons b rest2 =>
      cases i with
      | zero => rfl
      | succ j =>
        simp only [List.dropLast_cons_of_ne_nil (by simp : b :: rest2 ≠ []),
          List.getD_cons_succ]
        exact ih j (by simpa using h)

theorem getD_mem (l : List Val) (i : Nat) (d : Val) (h : i < l.length) :
    l.getD i d ∈ l := by
  induction l generalizing i with
  | nil => simp at h
  | cons a rest ih =>
    cases i with
    | zero => simp [List.getD_cons_zero]
    | succ j =>
      simp only [List.getD_cons_succ]
      exact List.mem_cons_of_mem _ (ih j (by simpa using h))

/-- Every value in the model came from one of the appends (or the initial
model state). -/
theorem modelFold_mem (ops : List AOp) : ∀ (m : List Val) (x : Val),
    x ∈ modelFold m ops → x ∈ m ∨ AOp.aput x ∈ ops := by
  induction ops with
  | nil => intro m x hx; exact Or.inl hx
  | cons op rest ih =>
    intro m x hx
    cases op with
    | aput v =>
      rcases ih (m ++ [v]) x hx with h | h
      · rcases List.mem_append.mp h with h2 | h2
        · exact Or.inl h2
        · simp only [List.mem_singleton] at h2
          subst h2
          exact Or.inr (List.mem_cons_self _ _)
      · exact Or.inr (List.mem_cons_of_mem _ h)
    | apop =>
      rcases ih m.dropLast x hx with h | h
      · exact Or.inl (List.dropLast_subset _ h)
      · exact Or.inr (List.mem_cons_of_mem _ h)

/-- Length bookkeeping of the model: appends minus successful pops. -/
theorem modelFold_length (ops : List AOp) : ∀ m : List Val,
    (modelFold m ops).length + succPopsFrom m ops = m.length + appendCount ops := by
  induction ops with
  | nil => intro m; simp [modelFold, succPopsFrom, appendCount]
  | cons op rest ih =>
    intro m
    cases op with
    | aput v =>
      have := ih (m ++ [v])
      simp only [modelFold, List.foldl_cons, modelStep, succPopsFrom, appendCount]
      simp only [modelFold] at this
      simp only [List.length_append, List.length_singleton] at this
      omega
    | apop =>
      have h := ih m.dropLast
      have hdl : m.dropLast.length = m.length - 1 := List.length_dropLast m
      rw [show modelFold m (AOp.apop :: rest) = modelFold m.dropLast rest from rfl,
        show succPopsFrom m (AOp.apop :: rest)
          = (if m.isEmpty then 0 else 1) + succPopsFrom m.dropLast rest from rfl,
        show appendCount (AOp.apop :: rest) = appendCount rest from rfl]
      by_cases hm : m = []
      · subst hm
        simpa using h
      · have hpos : 0 < m.length := List.length_pos.mpr hm
        rw [if_neg (by simpa [List.isEmpty_iff] using hm)]
        omega

/- ### The ArrayDB run invariant -/

/-- The invariant tying an (array, store) state to its model list: the cached
size and the persisted size both equal the model length, and every index
below the length stores the encoded model element. -/
def ArrInv (s : Scheme) (m : List Val) (a : ArrayDB) (st : Store) : Prop :=
  a.size = (m.length : Int) ∧
  ArrayDB.get_size_from_db s a.region st = (m.length : Int) ∧
  ∀ i : Nat, i < m.length →
    store_get st (a.region ++ [encKey s (.kint (i : Int))])
      = some (encode_value (m.getD i (.vint 0)))

theorem region_key_ne (r : List Bytes) (x y : Bytes) (h : x ≠ y) :
    r ++ [x] ≠ r ++ [y] := by
  intro he
  exact h (by simpa using List.append_cancel_left he)

theorem encKey_kint_ne (s : Scheme) (x y : Int) (h : x ≠ y) :
    encKey s (.kint x) ≠ encKey s (.kint y) := by
  intro he
  exact h (encKey_kint_injective s x y he)

/-- `put` preserves the invariant, provided no index encoding up to the new
length collides with the reserved size key. -/
theorem arr_put_preserves (s : Scheme) (m : List Val) (a : ArrayDB) (st : Store)
    (v : Val) (hInv : ArrInv s m a st)
    (hNC : ∀ i : Nat, i ≤ m.length → encKey s (.kint (i : Int)) ≠ sizeKey s) :
    ArrInv s (m ++ [v]) (ArrayDB.put s a st v).1 (ArrayDB.put s a st v).2 ∧
      (ArrayDB.put s a st v).1.region = a.region ∧
      (ArrayDB.put s a st v).1.vt = a.vt := by
  obtain ⟨hsz, hgs, helem⟩ := hInv
  have hput : ArrayDB.put s a st v =
      ({ a with size := a.size + 1 },
        store_put
          (store_put st (a.region ++ [encKey s (.kint a.size)]) (encode_value v))
          (a.region ++ [sizeKey s])
          (encode_value (.vint (a.size + 1)))) := rfl
  rw [hput]
  refine ⟨⟨?_, ?_, ?_⟩, rfl, rfl⟩
  · show a.size + 1 = ((m ++ [v]).length : Int)
    rw [hsz]
    simp
  · show ArrayDB.get_size_from_db s a.region _ = ((m ++ [v]).length : Int)
    rw [ArrayDB.get_size_from_db, store_get_put_eq]
    show asInt (decode_object (some (int_to_bytes (a.size + 1))) .tint) = _
    rw [asInt_decode_int, hsz]
    simp
  · intro i hi
    show store_get _ (a.region ++ [encKey s (.kint (i : Int))]) = _
    rw [store_get_put_ne _ _ _ _
      (region_key_ne _ _ _ (hNC i (by simpa using Nat.lt_succ_iff.mp (by simpa using hi))))]
    by_cases hlt : i < m.length
    · rw [store_get_put_ne _ _ _ _
        (region_key_ne _ _ _ (encKey_kint_ne s _ _ (by rw [hsz]; exact_mod_cast Nat.ne_of_lt hlt)))]
      rw [helem i hlt, getD_append_lt _ _ _ _ hlt]
    · have hieq : i = m.length := by
        have : i < m.length + 1 := by simpa using hi
        omega
      rw [hieq, ← hsz, store_get_put_eq, getD_append_len]

/-- `pop` on a non-empty array preserves the invariant (the deleted element
key and the size write do not disturb the surviving elements). -/
theorem arr_pop_preserves (s : Scheme) (m : List Val) (a : ArrayDB) (st : Store)
    (hne : m ≠ []) (hInv : ArrInv s m a st)
    (hNC : ∀ i : Nat, i < m.length → encKey s (.kint (i : Int)) ≠ sizeKey s) :
    ArrInv s m.dropLast (arrStep s (a, st) .apop).1 (arrStep s (a, st) .apop).2 ∧
      (arrStep s (a, st) .apop).1.region = a.region ∧
      (arrStep s (a, st) .apop).1.vt = a.vt := by
  obtain ⟨hsz, hgs, helem⟩ := hInv
  have hlen : 0 < m.length := List.length_pos.mpr hne
  have hsz0 : ¬ a.size = 0 := by
    rw [hsz]
    exact_mod_cast Nat.pos_iff_ne_zero.mp hlen
  have hga : ArrayDB.get_at s st a.region a.size (.vint (a.size - 1)) a.vt =
      .ok (decode_object
        (store_get st (a.region ++ [encKey s (.kint (a.size - 1))])) a.vt) := by
    rw [ArrayDB.get_at, if_neg (by simp [isIntLike])]
    show (let j := if intOf (Val.vint (a.size - 1)) < 0
            then intOf (Val.vint (a.size - 1)) + a.size
            else intOf (Val.vint (a.size - 1))
          if 0 ≤ j ∧ j < a.size then _ else _) = _
    have h2 : intOf (Val.vint (a.size - 1)) = a.size - 1 := rfl
    simp only [h2]
    rw [if_neg (show ¬ (a.size - 1 < 0) by rw [hsz]; omega)]
    rw [if_pos ⟨by rw [hsz]; omega, by rw [hsz]; omega⟩]
  have hstep : arrStep s (a, st) .apop =
      ({ a with size := a.size - 1 },
        store_put
          (store_delete st (a.region ++ [encKey s (.kint (a.size - 1))]))
          (a.region ++ [sizeKey s])
          (encode_value (.vint (a.size - 1)))) := by
    rw [arrStep, ArrayDB.pop, if_neg hsz0, hga]
    rfl
  rw [hstep]
  have hdl : m.dropLast.length = m.length - 1 := List.length_dropLast m
  refine ⟨⟨?_, ?_, ?_⟩, rfl, rfl⟩
  · show a.size - 1 = (m.dropLast.length : Int)
    rw [hsz, hdl]
    push_cast [hlen]
    omega
  · show ArrayDB.get_size_from_db s a.region _ = (m.dropLast.length : Int)
    rw [ArrayDB.get_size_from_db, store_get_put_eq]
    show asInt (decode_object (some (int_to_bytes (a.size - 1))) .tint) = _
    rw [asInt_decode_int, hsz, hdl]
    push_cast [hlen]
    omega
  · intro i hi
    rw [hdl] at hi
    show store_get _ (a.region ++ [encKey s (.kint (i : Int))]) = _
    rw [store_get_put_ne _ _ _ _
      (region_key_ne _ _ _ (hNC i (by omega)))]
    rw [store_get_delete_ne _ _ _
      (region_key_ne _ _ _ (encKey_kint_ne s _ _ (by rw [hsz]; omega)))]
    rw [helem i (by omega), getD_dropLast _ _ _ (by omega)]

/-- `pop` on an empty array returns no value and performs no store writes. -/
theorem arr_pop_empty (s : Scheme) (a : ArrayDB) (st : Store) (h : a.size = 0) :
    ArrayDB.pop s a st = .ok (none, a, st) := by
  rw [ArrayDB.pop, if_pos h]

/-- Run-level invariant: folding any operation sequence from an
invariant-satisfying state stays within the invariant, as long as no index
encoding used along the way collides with the reserved size key. -/
theorem arrFold_inv (s : Scheme) (ops : List AOp) :
    ∀ (m : List Val) (a : ArrayDB) (st : Store),
    ArrInv s m a st →
    (∀ i : Nat, i < m.length + appendCount ops →
      encKey s (.kint (i : Int)) ≠ sizeKey s) →
    ArrInv s (modelFold m ops) (List.foldl (arrStep s) (a, st) ops).1
        (List.foldl (arrStep s) (a, st) ops).2 ∧
      (modelFold m ops).length ≤ m.length + appendCount ops ∧
      (List.foldl (arrStep s) (a, st) ops).1.region = a.region ∧
      (List.foldl (arrStep s) (a, st) ops).1.vt = a.vt := by
  induction ops with
  | nil =>
    intro m a st hInv _
    exact ⟨hInv, by simp [modelFold, appendCount], rfl, rfl⟩
  | cons op rest ih =>
    intro m a st hInv hNC
    cases op with
    | aput v =>
      have hstep := arr_put_preserves s m a st v hInv
        (fun i hi => hNC i (by rw [appendCount]; omega))
      have hrec := ih (m ++ [v]) (ArrayDB.put s a st v).1 (ArrayDB.put s a st v).2
        hstep.1 (fun i hi => hNC i (by rw [appendCount]; simp at hi ⊢; omega))
      have hfold : List.foldl (arrStep s) (a, st) (AOp.aput v :: rest)
          = List.foldl (arrStep s) (ArrayDB.put s a st v) rest := by
        rw [List.foldl_cons]
        rfl
      have hmf : modelFold m (AOp.aput v :: rest) = modelFold (m ++ [v]) rest := rfl
      rw [hfold, hmf]
      refine ⟨?_, ?_, ?_, ?_⟩
      · have := hrec.1
        simpa using this
      · have := hrec.2.1
        rw [appendCount]
        simp at this ⊢
        omega
      · rw [hrec.2.2.1, hstep.2.1]
      · rw [hrec.2.2.2, hstep.2.2]
    | apop =>
      by_cases hm : m = []
      · subst hm
        have hsize0 : a.size = 0 := by simpa using hInv.1
        have hstep : arrStep s (a, st) .apop = (a, st) := by
          rw [arrStep, arr_pop_empty s a st hsize0]
        have hrec := ih [] a st hInv (fun i hi => hNC i (by rw [appendCount]; omega))
        have hfold : List.foldl (arrStep s) (a, st) (AOp.apop :: rest)
            = List.foldl (arrStep s) (a, st) rest := by
          rw [List.foldl_cons, hstep]
        have hmf : modelFold [] (AOp.apop :: rest) = modelFold [] rest := rfl
        rw [hfold, hmf]
        refine ⟨hrec.1, ?_, hrec.2.2.1, hrec.2.2.2⟩
        have := hrec.2.1
        rw [appendCount]
        omega
      · have hstep := arr_pop_preserves s m a st hm hInv
          (fun i hi => hNC i (by rw [appendCount]; omega))
        have hrec := ih m.dropLast (arrStep s (a, st) .apop).1
          (arrStep s (a, st) .apop).2 hstep.1
          (fun i hi => hNC i (by
            rw [appendCount]
            have hdl : m.dropLast.length = m.length - 1 := List.length_dropLast m
            omega))
        have hfold : List.foldl (arrStep s) (a, st) (AOp.apop :: rest)
            = List.foldl (arrStep s) (arrStep s (a, st) .apop) rest := by
          rw [List.foldl_cons]
        have hmf : modelFold m (AOp.apop :: rest) = modelFold m.dropLast rest := rfl
        rw [hfold, hmf]
        refine ⟨?_, ?_, ?_, ?_⟩
        · have := hrec.1
          simpa using this
        · have := hrec.2.1
          have hdl : m.dropLast.length = m.length - 1 := List.length_dropLast m
          rw [appendCount]
          omega
        · rw [hrec.2.2.1, hstep.2.1]
        · rw [hrec.2.2.2, hstep.2.2]

/-- The fresh array over an empty region satisfies the invariant for the
empty model. -/
theorem arrInit_inv (s : Scheme) (k : Key) (vt : ValueType) :
    ArrInv s [] (ArrayDB.make s k vt emptyStore) emptyStore := by
  refine ⟨?_, ?_, ?_⟩
  · show ArrayDB.get_size_from_db s (arrRegion s k) emptyStore = (0 : Int)
    rfl
  · rfl
  · intro i hi
    simp at hi

/- ### Evaluation lemmas for indexing -/

/-- `_get` on an integer index: normalize, bounds-check, read. -/
theorem get_at_int (s : Scheme) (st : Store) (region : List Bytes) (size : Int)
    (i : Int) (vt : ValueType) :
    ArrayDB.get_at s st region size (.vint i) vt =
      if 0 ≤ (if i < 0 then i + size else i) ∧ (if i < 0 then i + size else i) < size
      then .ok (decode_object
        (store_get st (region ++ [encKey s (.kint (if i < 0 then i + size else i))])) vt)
      else .error .outOfIndex := by
  rw [ArrayDB.get_at, if_neg (by simp [isIntLike])]
  rfl

/-- `_get` on a non-integer index fails with the invalid-index error. -/
theorem get_at_non_int (s : Scheme) (st : Store) (region : List Bytes)
    (size : Int) (index : Val) (vt : ValueType) (h : isIntLike index = false) :
    ArrayDB.get_at s st region size index vt = .error .invalidIndexType := by
  rw [ArrayDB.get_at, if_pos (by simp [h])]

/-- `__setitem__` on an integer index: normalize, bounds-check, write. -/
theorem setItem_int (s : Scheme) (a : ArrayDB) (st : Store) (i : Int) (v : Val) :
    ArrayDB.setItem s a st (.vint i) v =
      if 0 ≤ (if i < 0 then i + a.size else i) ∧ (if i < 0 then i + a.size else i) < a.size
      then .ok (ArrayDB.put_internal s a st (if i < 0 then i + a.size else i) v)
      else .error .outOfIndex := by
  rw [ArrayDB.setItem, if_neg (by simp [isIntLike])]
  rfl

/-- `__setitem__` on a non-integer index fails with the invalid-index error. -/
theorem setItem_non_int (s : Scheme) (a : ArrayDB) (st : Store) (index : Val)
    (v : Val) (h : isIntLike index = false) :
    ArrayDB.setItem s a st index v = .error .invalidIndexType := by
  rw [ArrayDB.setItem, if_pos (by simp [h])]

/-- A pure run of `N` appends: the cached size is `N`, the persisted size
bytes are `int_to_bytes N` once `N > 0`, and region and value type are those
of construction.  (No collision hypothesis: the size write always comes last
in `put`.) -/
theorem arrRun_puts (s : Scheme) (k : Key) (vt : ValueType) (v : Val) (N : Nat) :
    (arrRun s k vt (List.replicate N (.aput v))).1.size = (N : Int) ∧
    (N ≠ 0 → store_get (arrRun s k vt (List.replicate N (.aput v))).2
      ((arrRun s k vt (List.replicate N (.aput v))).1.region ++ [sizeKey s])
      = some (int_to_bytes (N : Int))) ∧
    (arrRun s k vt (List.replicate N (.aput v))).1.region = arrRegion s k ∧
    (arrRun s k vt (List.replicate N (.aput v))).1.vt = vt := by
  induction N with
  | zero =>
    refine ⟨rfl, by omega, rfl, rfl⟩
  | succ n ih =>
    obtain ⟨ihsz, ihst, ihreg, ihvt⟩ := ih
    have hrep : List.replicate (n + 1) (AOp.aput v) =
        List.replicate n (AOp.aput v) ++ [AOp.aput v] := List.replicate_succ' _ _
    have hrun : arrRun s k vt (List.replicate (n + 1) (.aput v)) =
        arrStep s (arrRun s k vt (List.replicate n (.aput v))) (.aput v) := by
      rw [arrRun, hrep, List.foldl_append]
      rfl
    set p := arrRun s k vt (List.replicate n (.aput v)) with hp
    have hstep : arrStep s p (.aput v) =
        ({ p.1 with size := p.1.size + 1 },
          store_put
            (store_put p.2 (p.1.region ++ [encKey s (.kint p.1.size)]) (encode_value v))
            (p.1.region ++ [sizeKey s])
            (encode_value (.vint (p.1.size + 1)))) := by
      rw [arrStep]
      rfl
    rw [hrun, hstep]
    refine ⟨?_, ?_, ?_, ?_⟩
    · show p.1.size + 1 = ((n + 1 : Nat) : Int)
      rw [ihsz]
      push_cast
      ring
    · intro _
      show store_get _ (p.1.region ++ [sizeKey s]) = _
      rw [store_get_put_eq]
      show some (int_to_bytes (p.1.size + 1)) = _
      rw [ihsz]
      norm_num
    · exact ihreg
    · exact ihvt

/- ### Unconditional case analysis of `pop` and write locality -/

/-- Exhaustive case analysis of `ArrayDB.pop`. -/
theorem pop_cases (s : Scheme) (a : ArrayDB) (st : Store) :
    (a.size = 0 ∧ ArrayDB.pop s a st = .ok (none, a, st)) ∨
    (a.size ≠ 0 ∧ ∃ e, ArrayDB.pop s a st = .error e) ∨
    (a.size ≠ 0 ∧ ∃ lv,
      ArrayDB.get_at s st a.region a.size (.vint (a.size - 1)) a.vt = .ok lv ∧
      ArrayDB.pop s a st = .ok (lv, { a with size := a.size - 1 },
        store_put (store_delete st (a.region ++ [encKey s (.kint (a.size - 1))]))
          (a.region ++ [sizeKey s]) (encode_value (.vint (a.size - 1))))) := by
  by_cases h0 : a.size = 0
  · exact Or.inl ⟨h0, by rw [ArrayDB.pop, if_pos h0]⟩
  · rcases hga : ArrayDB.get_at s st a.region a.size (.vint (a.size - 1)) a.vt with e | lv
    · refine Or.inr (Or.inl ⟨h0, e, ?_⟩)
      rw [ArrayDB.pop, if_neg h0, hga]
    · refine Or.inr (Or.inr ⟨h0, lv, rfl, ?_⟩)
      rw [ArrayDB.pop, if_neg h0, hga]
      rfl

/-- The pop step either leaves the state unchanged or deletes the last
element's key and persists the decremented size. -/
theorem arrStep_pop_cases (s : Scheme) (a : ArrayDB) (st : Store) :
    arrStep s (a, st) .apop = (a, st) ∨
    arrStep s (a, st) .apop = ({ a with size := a.size - 1 },
      store_put (store_delete st (a.region ++ [encKey s (.kint (a.size - 1))]))
        (a.region ++ [sizeKey s]) (encode_value (.vint (a.size - 1)))) := by
  rcases pop_cases s a st with ⟨_, h⟩ | ⟨_, e, h⟩ | ⟨_, lv, _, h⟩
  · left
    rw [arrStep, h]
  · left
    rw [arrStep, h]
  · right
    rw [arrStep, h]

/-- Every step preserves the container's region and value type. -/
theorem arrStep_region_vt (s : Scheme) (p : ArrayDB × Store) (op : AOp) :
    (arrStep s p op).1.region = p.1.region ∧ (arrStep s p op).1.vt = p.1.vt := by
  cases op with
  | aput v => exact ⟨rfl, rfl⟩
  | apop =>
    rcases arrStep_pop_cases s p.1 p.2 with h | h <;> rw [h] <;> exact ⟨rfl, rfl⟩

/-- A step on one array touches only keys inside its own region. -/
theorem arrStep_local (s : Scheme) (p : ArrayDB × Store) (op : AOp)
    (q : List Bytes) (hq : ∀ c : Bytes, q ≠ p.1.region ++ [c]) :
    store_get (arrStep s p op).2 q = store_get p.2 q := by
  cases op with
  | aput v =>
    show store_get (store_put (store_put p.2 _ _) _ _) q = _
    rw [store_get_put_ne _ _ _ _ (hq _), store_get_put_ne _ _ _ _ (hq _)]
  | apop =>
    rcases arrStep_pop_cases s p.1 p.2 with h | h
    · rw [h]
    · rw [h]
      show store_get (store_put (store_delete p.2 _) _ _) q = _
      rw [store_get_put_ne _ _ _ _ (hq _), store_get_delete_ne _ _ _ (hq _)]

/-- A whole run on one array touches only keys inside its own region. -/
theorem arrFold_local (s : Scheme) (ops : List AOp) :
    ∀ (p : ArrayDB × Store) (q : List Bytes), (∀ c : Bytes, q ≠ p.1.region ++ [c]) →
    store_get (List.foldl (arrStep s) p ops).2 q = store_get p.2 q := by
  induction ops with
  | nil => intro p q _; rfl
  | cons op rest ih =>
    intro p q hq
    rw [List.foldl_cons]
    have hreg := (arrStep_region_vt s p op).1
    have := ih (arrStep s p op) q (by rw [hreg]; exact hq)
    rw [this, arrStep_local s p op q hq]

/-- Distinct `encode_key` images stay distinct under either scheme. -/
theorem encKey_ne_of_encode_key_ne (s : Scheme) (k1 k2 : Key)
    (h : encode_key k1 ≠ encode_key k2) : encKey s k1 ≠ encKey s k2 := by
  cases s with
  | v1 => exact h
  | v2 =>
    intro he
    exact h (rlp_encode_bytes_injective he)

theorem arrRegion_ne (s : Scheme) (k1 k2 : Key)
    (h : encode_key k1 ≠ encode_key k2) : arrRegion s k1 ≠ arrRegion s k2 := by
  intro he
  rw [arrRegion, arrRegion] at he
  exact encKey_ne_of_encode_key_ne s k1 k2 h (by simpa using he)

/-- Full keys under regions of equal length but different contents differ. -/
theorem region_append_ne (r1 r2 : List Bytes) (x y : Bytes)
    (hne : r1 ≠ r2) (hlen : r1.length = r2.length) : r1 ++ [x] ≠ r2 ++ [y] := by
  intro he
  exact hne (List.append_inj_left he hlen)

/-- `_get` on a boolean index (int-like in Python) reads it as 0/1. -/
theorem get_at_bool (s : Scheme) (st : Store) (region : List Bytes) (size : Int)
    (b : Bool) (vt : ValueType) :
    ArrayDB.get_at s st region size (.vbool b) vt =
      (if 0 ≤ ((if b then (1 : Int) else 0)) ∧ ((if b then (1 : Int) else 0)) < size
       then .ok (decode_object
         (store_get st (region ++ [encKey s (.kint (if b then 1 else 0))])) vt)
       else .error .outOfIndex) := by
  rw [ArrayDB.get_at, if_neg (by simp [isIntLike])]
  show (let j := if intOf (Val.vbool b) < 0
          then intOf (Val.vbool b) + size else intOf (Val.vbool b)
        if 0 ≤ j ∧ j < size then _ else _) = _
  have h2 : intOf (Val.vbool b) = if b then 1 else 0 := rfl
  simp only [h2]
  rw [if_neg (show ¬ ((if b then (1 : Int) else 0) < 0) by cases b <;> norm_num)]

/-- `_get` depends on the store only through the container's region. -/
theorem get_at_congr (s : Scheme) (st st2 : Store) (region : List Bytes)
    (size : Int) (index : Val) (vt : ValueType)
    (h : ∀ c : Bytes, store_get st2 (region ++ [c]) = store_get st (region ++ [c])) :
    ArrayDB.get_at s st2 region size index vt
      = ArrayDB.get_at s st region size index vt := by
  cases index with
  | vint i =>
    rw [get_at_int, get_at_int]
    by_cases hj : 0 ≤ (if i < 0 then i + size else i) ∧
        (if i < 0 then i + size else i) < size
    · rw [if_pos hj, if_pos hj, h]
    · rw [if_neg hj, if_neg hj]
  | vbool b =>
    rw [get_at_bool, get_at_bool]
    by_cases hj : 0 ≤ ((if b then (1 : Int) else 0)) ∧ ((if b then (1 : Int) else 0)) < size
    · rw [if_pos hj, if_pos hj, h]
    · rw [if_neg hj, if_neg hj]
  | vstr c =>
    rw [get_at_non_int _ _ _ _ _ _ (by rfl), get_at_non_int _ _ _ _ _ _ (by rfl)]
  | vaddr c =>
    rw [get_at_non_int _ _ _ _ _ _ (by rfl), get_at_non_int _ _ _ _ _ _ (by rfl)]
  | vbytes c =>
    rw [get_at_non_int _ _ _ _ _ _ (by rfl), get_at_non_int _ _ _ _ _ _ (by rfl)]

/- ### Small-literal codec evaluations -/

theorem int_to_bytes_zero : int_to_bytes (0 : Int) = [0] := by
  have h := int_to_bytes_small 0 (by norm_num)
  simpa using h

theorem int_to_bytes_one : int_to_bytes (1 : Int) = [1] := by
  have h := int_to_bytes_small 1 (by norm_num)
  simpa using h

/- ### Map Container: `DictDB` (lines 180-251) -/

/-- A `DictDB` instance: region, element type and remaining nesting depth. -/
structure DictDB where
  region : List Bytes
  vt : ValueType
  depth : Int
deriving DecidableEq

/-- Source `DictDB.__init__` (lines 190-205) for a root database handle:
the region is `create_db_prefix(DictDB, var_key)`. -/
def DictDB.make (s : Scheme) (k : Key) (vt : ValueType) (depth : Int) : DictDB :=
  { region := [DICT_DB_ID, encKey s k], vt := vt, depth := depth }

/-- Source `DictDB.__setitem__` (lines 215-222). -/
def DictDB.setItem (s : Scheme) (d : DictDB) (st : Store) (k : Key) (v : Val) :
    Except CErr Store :=
  if d.depth ≠ 1 then .error .invalidAccess
  else .ok (store_put st (d.region ++ [encKey s k]) (encode_value v))

/-- Source `DictDB.__remove` / `remove` / `__delitem__` (lines 207-213,
236-237, 245-248). -/
def DictDB.removeItem (s : Scheme) (d : DictDB) (st : Store) (k : Key) :
    Except CErr Store :=
  if d.depth ≠ 1 then .error .invalidAccess
  else .ok (store_delete st (d.region ++ [encKey s k]))

/-- Result of `DictDB.__getitem__`: either a decoded value (depth 1) or a
child container (any other depth). -/
inductive DictGet where
  | value (v : Option Val)
  | child (d : DictDB)
deriving DecidableEq

/-- Source `DictDB.__getitem__` (lines 224-234): at depth 1 decode the stored
bytes; otherwise build a child `DictDB` over the non-root sub-database (whose
region adds only the encoded key, no container tag) with depth - 1. -/
def DictDB.getItem (s : Scheme) (d : DictDB) (st : Store) (k : Key) : DictGet :=
  if d.depth = 1 then
    .value (decode_object (store_get st (d.region ++ [encKey s k])) d.vt)
  else
    .child { region := d.region ++ [encKey s k], vt := d.vt, depth := d.depth - 1 }

/-- Source `DictDB.__contains__` (lines 239-243). -/
def DictDB.containsKey (s : Scheme) (d : DictDB) (st : Store) (k : Key) : Bool :=
  (store_get st (d.region ++ [encKey s k])).isSome

/- ### Scalar Container: `VarDB` (lines 370-406) -/

/-- A `VarDB` instance: all scalars share the `VAR_DB_ID` region; the
instance keeps its own encoded `var_key` and value type. -/
structure VarDB where
  region : List Bytes
  keyComp : Bytes
  vt : ValueType
deriving DecidableEq

/-- Source `VarDB.__init__` (lines 379-383). -/
def VarDB.make (s : Scheme) (k : Key) (vt : ValueType) : VarDB :=
  { region := [VAR_DB_ID], keyComp := encKey s k, vt := vt }

/-- Source `VarDB.set` (lines 385-392). -/
def VarDB.setVal (d : VarDB) (st : Store) (v : Val) : Store :=
  store_put st (d.region ++ [d.keyComp]) (encode_value v)

/-- Source `VarDB.get` (lines 394-400). -/
def VarDB.getVal (d : VarDB) (st : Store) : Option Val :=
  decode_object (store_get st (d.region ++ [d.keyComp])) d.vt

/-- Source `VarDB.remove` (lines 402-406). -/
def VarDB.removeVal (d : VarDB) (st : Store) : Store :=
  store_delete st (d.region ++ [d.keyComp])

/-! ## Claims -/

/-- C2: `rlp_encode_bytes` (frame_v2) returns a single byte below 0x80
unchanged; for a payload of at most 55 bytes (including the empty payload and
the one-byte payload with value ≥ 0x80) it returns `0x80+len` followed by the
payload; otherwise it returns `0x80+55+L` followed by the `L`-byte big-endian
minimal representation of the length followed by the payload; and its output
is strictly longer than its input except in the single-byte passthrough
case. -/
theorem c2_frame_v2 (b : Bytes) :
    (b.length = 1 ∧ b.headD 0 < 0x80 → rlp_encode_bytes b = b) ∧
    (¬ (b.length = 1 ∧ b.headD 0 < 0x80) → b.length ≤ 55 →
      rlp_encode_bytes b = (0x80 + b.length) :: b) ∧
    (55 < b.length →
      rlp_encode_bytes b
        = (0x80 + 55 + (rlp_get_bytes b.length).length)
            :: (rlp_get_bytes b.length ++ b) ∧
      bytesToNat (rlp_get_bytes b.length) = b.length ∧
      (rlp_get_bytes b.length).headD 0 ≠ 0) ∧
    (¬ (b.length = 1 ∧ b.headD 0 < 0x80) →
      b.length < (rlp_encode_bytes b).length) := by
  refine ⟨?_, ?_, ?_, ?_⟩
  · intro h
    rw [rlp_encode_bytes, if_pos h]
  · intro h1 h2
    rw [rlp_encode_bytes, if_neg h1, if_pos h2, Nat.add_comm]
  · intro h
    have h1 : ¬ (b.length = 1 ∧ b.headD 0 < 0x80) := by
      rintro ⟨hl, _⟩
      omega
    refine ⟨?_, bytesToNat_rlp_get_bytes _, rlp_get_bytes_headD _ (by omega)⟩
    rw [rlp_encode_bytes, if_neg h1, if_neg (by omega)]
    congr 1
    omega
  · intro h1
    rw [rlp_encode_bytes, if_neg h1]
    by_cases h2 : b.length ≤ 55
    · rw [if_pos h2]
      simp
    · rw [if_neg h2]
      simp
      omega

/-- Witness for C2 at two concrete payloads: the one-byte value 0x90 (short
form, not passthrough) and a 56-byte payload (long form). -/
theorem c2_frame_v2_witness :
    rlp_encode_bytes [0x90] = (0x80 + 1) :: [0x90] ∧
    rlp_encode_bytes (List.replicate 56 0)
      = (0x80 + 55 + (rlp_get_bytes (List.replicate 56 (0 : Nat)).length).length)
          :: (rlp_get_bytes (List.replicate 56 (0 : Nat)).length ++ List.replicate 56 0) ∧
    (List.replicate 56 (0 : Nat)).length
      < (rlp_encode_bytes (List.replicate 56 0)).length := by
  refine ⟨?_, ?_, ?_⟩
  · have h := (c2_frame_v2 [0x90]).2.1 (by norm_num) (by norm_num)
    simpa using h
  · exact ((c2_frame_v2 (List.replicate 56 0)).2.2.1 (by simp)).1
  · exact (c2_frame_v2 (List.replicate 56 0)).2.2.2 (by simp)

/-- C3: for every supported logical value type and every value of that type,
decoding the encoding under the same declared type returns the value:
`decode_value(encode_value(v), T) == v`. -/
theorem c3_round_trip (v : Val) :
    decode_object (some (encode_value v)) (typeOfVal v) = some v :=
  decode_object_encode_value v

/-- C10: for every byte string, present or absent, decoding under a requested
type outside the five supported kinds returns `None` (and, being total, never
raises). -/
theorem c10_decode_unsupported (b : Option Bytes) :
    decode_object b .tother = none := by
  cases b <;> rfl

/-- C8: a Scalar Container returns its type's zero value whenever no value is
stored — before any `set`, and again after `set` followed by `remove`; the
zero values are 0, the empty string, false, and no value for
address/bytes. -/
theorem c8_scalar_zero (s : Scheme) (k : Key) (vt : ValueType) (st : Store)
    (v : Val) :
    VarDB.getVal (VarDB.make s k vt) emptyStore = get_default_value vt ∧
    VarDB.getVal (VarDB.make s k vt)
      (VarDB.removeVal (VarDB.make s k vt) (VarDB.setVal (VarDB.make s k vt) st v))
      = get_default_value vt ∧
    get_default_value .tint = some (.vint 0) ∧
    get_default_value .tstr = some (.vstr []) ∧
    get_default_value .tbool = some (.vbool false) ∧
    get_default_value .taddr = none ∧
    get_default_value .tbytes = none := by
  refine ⟨?_, ?_, rfl, rfl, rfl, rfl, rfl⟩
  · rfl
  · rw [VarDB.getVal, VarDB.removeVal, store_get_delete_eq]
    rfl

/-- C7: Map Container depth discipline — `set` and `remove` succeed exactly
at depth 1 and fail with the invalid-container-access error at any other
depth; at depth > 1, `get` is a pure navigation step returning a child
container over the key with depth − 1, independent of the store and never
failing; only at depth 1 does `get` decode stored data. -/
theorem c7_dict_depth (s : Scheme) (d : DictDB) (st : Store) (k : Key) (v : Val) :
    ((∃ st2, DictDB.setItem s d st k v = .ok st2) ↔ d.depth = 1) ∧
    (d.depth ≠ 1 →
      DictDB.setItem s d st k v = .error .invalidAccess ∧
      DictDB.removeItem s d st k = .error .invalidAccess) ∧
    (d.depth = 1 →
      DictDB.setItem s d st k v
        = .ok (store_put st (d.region ++ [encKey s k]) (encode_value v)) ∧
      DictDB.removeItem s d st k
        = .ok (store_delete st (d.region ++ [encKey s k]))) ∧
    (1 < d.depth →
      DictDB.getItem s d st k
        = .child { region := d.region ++ [encKey s k], vt := d.vt,
                   depth := d.depth - 1 } ∧
      (∀ st2 : Store, DictDB.getItem s d st2 k = DictDB.getItem s d st k)) ∧
    (d.depth = 1 →
      DictDB.getItem s d st k
        = .value (decode_object (store_get st (d.region ++ [encKey s k])) d.vt)) := by
  by_cases h1 : d.depth = 1
  · refine ⟨?_, ?_, ?_, ?_, ?_⟩
    · constructor
      · intro _
        exact h1
      · intro _
        exact ⟨_, by rw [DictDB.setItem, if_neg (by omega)]⟩
    · intro h
      exact absurd h1 h
    · intro _
      exact ⟨by rw [DictDB.setItem, if_neg (by omega)],
        by rw [DictDB.removeItem, if_neg (by omega)]⟩
    · intro h
      omega
    · intro _
      rw [DictDB.getItem, if_pos h1]
  · refine ⟨?_, ?_, ?_, ?_, ?_⟩
    · constructor
      · rintro ⟨st2, hst2⟩
        rw [DictDB.setItem, if_pos h1] at hst2
        cases hst2
      · intro h
        exact absurd h h1
    · intro _
      exact ⟨by rw [DictDB.setItem, if_pos h1],
        by rw [DictDB.removeItem, if_pos h1]⟩
    · intro h
      exact absurd h h1
    · intro _
      exact ⟨by rw [DictDB.getItem, if_neg h1],
        fun st2 => by rw [DictDB.getItem, if_neg h1, DictDB.getItem, if_neg h1]⟩
    · intro h
      exact absurd h h1

/-- Witness for C7: a depth-2 map rejects direct writes and navigates to a
depth-1 child, on which writes succeed. -/
theorem c7_dict_depth_witness :
    DictDB.setItem .v2 (DictDB.make .v2 (.kstr [97]) .tint 2) emptyStore
        (.kstr [98]) (.vint 1) = .error .invalidAccess ∧
    DictDB.getItem .v2 (DictDB.make .v2 (.kstr [97]) .tint 2) emptyStore (.kstr [98])
      = .child { region := (DictDB.make .v2 (.kstr [97]) .tint 2).region
                   ++ [encKey .v2 (.kstr [98])],
                 vt := .tint, depth := 1 } ∧
    DictDB.setItem .v2
        { region := (DictDB.make .v2 (.kstr [97]) .tint 2).region
            ++ [encKey .v2 (.kstr [98])], vt := .tint, depth := 1 }
        emptyStore (.kstr [99]) (.vint 7)
      = .ok (store_put emptyStore
          (((DictDB.make .v2 (.kstr [97]) .tint 2).region
            ++ [encKey .v2 (.kstr [98])]) ++ [encKey .v2 (.kstr [99])])
          (encode_value (.vint 7))) := by
  refine ⟨?_, ?_, ?_⟩
  · exact ((c7_dict_depth .v2 (DictDB.make .v2 (.kstr [97]) .tint 2) emptyStore
      (.kstr [98]) (.vint 1)).2.1 (by decide)).1
  · have h := ((c7_dict_depth .v2 (DictDB.make .v2 (.kstr [97]) .tint 2) emptyStore
      (.kstr [98]) (.vint 1)).2.2.2.1 (by decide)).1
    simpa using h
  · exact ((c7_dict_depth .v2
      { region := (DictDB.make .v2 (.kstr [97]) .tint 2).region
          ++ [encKey .v2 (.kstr [98])], vt := .tint, depth := 1 }
      emptyStore (.kstr [99]) (.vint 7)).2.2.1 rfl).1

/-- C6: Sequence indexing — `get` and `set` normalize a negative index by
adding the length, succeed exactly when the resolved index lies in
`[0, length)`, fail with the out-of-range error otherwise, and fail with the
invalid-index error on any non-integer index; for length 5, `get(-1)` equals
`get(4)`, `get(-5)` equals `get(0)`, and `get(-6)` is out of range. -/
theorem c6_index_normalization (s : Scheme) (a : ArrayDB) (st : Store)
    (i : Int) (index : Val) (v : Val) :
    (isIntLike index = false →
      ArrayDB.get s a st index = .error .invalidIndexType ∧
      ArrayDB.setItem s a st index v = .error .invalidIndexType) ∧
    (0 ≤ (if i < 0 then i + a.size else i) ∧
        (if i < 0 then i + a.size else i) < a.size →
      ArrayDB.get s a st (.vint i)
        = .ok (decode_object (store_get st
            (a.region ++ [encKey s (.kint (if i < 0 then i + a.size else i))])) a.vt) ∧
      ArrayDB.setItem s a st (.vint i) v
        = .ok (ArrayDB.put_internal s a st (if i < 0 then i + a.size else i) v)) ∧
    (¬ (0 ≤ (if i < 0 then i + a.size else i) ∧
        (if i < 0 then i + a.size else i) < a.size) →
      ArrayDB.get s a st (.vint i) = .error .outOfIndex ∧
      ArrayDB.setItem s a st (.vint i) v = .error .outOfIndex) ∧
    (a.size = 5 →
      ArrayDB.get s a st (.vint (-1)) = ArrayDB.get s a st (.vint 4) ∧
      ArrayDB.get s a st (.vint (-5)) = ArrayDB.get s a st (.vint 0) ∧
      ArrayDB.get s a st (.vint (-6)) = .error .outOfIndex) := by
  refine ⟨?_, ?_, ?_, ?_⟩
  · intro h
    exact ⟨get_at_non_int _ _ _ _ _ _ h, setItem_non_int _ _ _ _ _ h⟩
  · intro h
    constructor
    · rw [ArrayDB.get, get_at_int, if_pos h]
    · rw [setItem_int, if_pos h]
  · intro h
    constructor
    · rw [ArrayDB.get, get_at_int, if_neg h]
    · rw [setItem_int, if_neg h]
  · intro h5
    refine ⟨?_, ?_, ?_⟩
    · rw [ArrayDB.get, ArrayDB.get, get_at_int, get_at_int, h5]
      norm_num
    · rw [ArrayDB.get, ArrayDB.get, get_at_int, get_at_int, h5]
      norm_num
    · rw [ArrayDB.get, get_at_int, h5]
      norm_num

/-- Witness for C6 on a length-5 array: a string index is invalid, index 2 is
in range, index 7 is out of range, and the tail-addressing instances hold. -/
theorem c6_index_normalization_witness :
    (ArrayDB.get .v2 ⟨arrRegion .v2 (.kstr [97]), .tint, 5⟩ emptyStore (.vstr [])
        = .error .invalidIndexType) ∧
    (ArrayDB.get .v2 ⟨arrRegion .v2 (.kstr [97]), .tint, 5⟩ emptyStore (.vint 2)
        = .ok (decode_object (store_get emptyStore
            (arrRegion .v2 (.kstr [97]) ++ [encKey .v2 (.kint 2)])) .tint)) ∧
    (ArrayDB.get .v2 ⟨arrRegion .v2 (.kstr [97]), .tint, 5⟩ emptyStore (.vint 7)
        = .error .outOfIndex) ∧
    (ArrayDB.get .v2 ⟨arrRegion .v2 (.kstr [97]), .tint, 5⟩ emptyStore (.vint (-1))
        = ArrayDB.get .v2 ⟨arrRegion .v2 (.kstr [97]), .tint, 5⟩ emptyStore (.vint 4)) ∧
    (ArrayDB.get .v2 ⟨arrRegion .v2 (.kstr [97]), .tint, 5⟩ emptyStore (.vint (-6))
        = .error .outOfIndex) := by
  refine ⟨?_, ?_, ?_, ?_, ?_⟩
  · exact ((c6_index_normalization .v2 ⟨arrRegion .v2 (.kstr [97]), .tint, 5⟩
      emptyStore 0 (.vstr []) (.vint 0)).1 rfl).1
  · have h := ((c6_index_normalization .v2 ⟨arrRegion .v2 (.kstr [97]), .tint, 5⟩
      emptyStore 2 (.vstr []) (.vint 0)).2.1 (by norm_num)).1
    simpa using h
  · have h := ((c6_index_normalization .v2 ⟨arrRegion .v2 (.kstr [97]), .tint, 5⟩
      emptyStore 7 (.vstr []) (.vint 0)).2.2.1 (by norm_num)).1
    simpa using h
  · exact ((c6_index_normalization .v2 ⟨arrRegion .v2 (.kstr [97]), .tint, 5⟩
      emptyStore 0 (.vstr []) (.vint 0)).2.2.2 rfl).1
  · exact ((c6_index_normalization .v2 ⟨arrRegion .v2 (.kstr [97]), .tint, 5⟩
      emptyStore 0 (.vstr []) (.vint 0)).2.2.2 rfl).2.2

/-- C4 (counterexample): the claim fails as stated — under the v1 scheme the
reserved size key `b'size'` IS the encoding of the index 0x73697a65, because
`int_to_bytes(0x73697a65)` is exactly the UTF-8 bytes of 'size'. -/
theorem c4_size_key_counterexample :
    encKey .v1 (.kint 0x73697a65) = sizeKey .v1 := by
  show int_to_bytes (0x73697a65 : Int) = _
  rw [int_to_bytes_collision]
  rfl

/-- C4 (amended): under the v2 scheme the reserved size key (the empty byte
string) differs from every index encoding; under the v1 scheme it differs
from the encoding of every non-negative index other than 0x73697a65. -/
theorem c4_size_key_disjoint (i : Nat) (h : i ≠ 0x73697a65) :
    encKey .v2 (.kint (i : Int)) ≠ sizeKey .v2 ∧
    encKey .v1 (.kint (i : Int)) ≠ sizeKey .v1 := by
  refine ⟨encKey_v2_ne_sizeKey _, encKey_v1_kint_ne_sizeKey _ ?_⟩
  intro he
  apply h
  exact_mod_cast he

/-- Witness for C4 at index 5. -/
theorem c4_size_key_disjoint_witness :
    encKey .v2 (.kint ((5 : Nat) : Int)) ≠ sizeKey .v2 ∧
    encKey .v1 (.kint ((5 : Nat) : Int)) ≠ sizeKey .v1 :=
  c4_size_key_disjoint 5 (by norm_num)

theorem modelFold_replicate (N : Nat) (v : Val) : ∀ m : List Val,
    modelFold m (List.replicate N (.aput v)) = m ++ List.replicate N v := by
  induction N with
  | zero => intro m; simp [modelFold]
  | succ n ih =>
    intro m
    rw [List.replicate_succ, List.replicate_succ]
    have h1 : modelFold m (AOp.aput v :: List.replicate n (.aput v))
        = modelFold (m ++ [v]) (List.replicate n (.aput v)) := rfl
    rw [h1, ih (m ++ [v])]
    simp

theorem getD_replicate (N : Nat) (v d : Val) (i : Nat) (h : i < N) :
    (List.replicate N v).getD i d = v := by
  induction N generalizing i with
  | zero => omega
  | succ n ih =>
    rw [List.replicate_succ]
    cases i with
    | zero => rfl
    | succ j =>
      rw [List.getD_cons_succ]
      exact ih j (by omega)

/-- C1 (amended): starting from an empty region, after any sequence of
appends and pops the reported length equals the number of appends minus the
number of successful pops, `get(i)` for `i < length` returns the i-th
surviving appended value, a pop is unsuccessful exactly when the length is 0
(returning no value and writing nothing), and a pop on a non-empty sequence
returns the last value — provided no index below the append count encodes to
the reserved size key under the scheme in use (always true under v2, and true
under v1 exactly when at most 0x73697a65 appends occur), and the appended
values carry the container's declared value type. -/
theorem c1_sequence_invariant (s : Scheme) (k : Key) (vt : ValueType)
    (ops : List AOp)
    (hNC : ∀ i : Nat, i < appendCount ops → encKey s (.kint (i : Int)) ≠ sizeKey s)
    (hT : ∀ v : Val, AOp.aput v ∈ ops → typeOfVal v = vt) :
    ArrayDB.length (arrRun s k vt ops).1 = ((modelRun ops).length : Int) ∧
    (modelRun ops).length + succPops ops = appendCount ops ∧
    (∀ i : Nat, i < (modelRun ops).length →
      ArrayDB.get s (arrRun s k vt ops).1 (arrRun s k vt ops).2 (.vint (i : Int))
        = .ok (some ((modelRun ops).getD i (.vint 0)))) ∧
    (∀ (a : ArrayDB) (st2 : Store), a.size = 0 →
      ArrayDB.pop s a st2 = .ok (none, a, st2)) ∧
    ((modelRun ops).length ≠ 0 →
      ∃ st2, ArrayDB.pop s (arrRun s k vt ops).1 (arrRun s k vt ops).2
        = .ok (some ((modelRun ops).getD ((modelRun ops).length - 1) (.vint 0)),
            { (arrRun s k vt ops).1 with
                size := (arrRun s k vt ops).1.size - 1 }, st2)) := by
  have hfold := arrFold_inv s ops [] (ArrayDB.make s k vt emptyStore) emptyStore
    (arrInit_inv s k vt) (by intro i hi; exact hNC i (by simpa using hi))
  obtain ⟨⟨hsz, hgs, helem⟩, hlenb, hreg, hvt⟩ := hfold
  have harr : arrRun s k vt ops
      = List.foldl (arrStep s) (ArrayDB.make s k vt emptyStore, emptyStore) ops := rfl
  have hm : modelRun ops = modelFold [] ops := rfl
  have htype : ∀ i : Nat, i < (modelFold [] ops).length →
      typeOfVal ((modelFold [] ops).getD i (.vint 0)) = vt := by
    intro i hi
    have hmem := getD_mem (modelFold [] ops) i (.vint 0) hi
    rcases modelFold_mem ops [] _ hmem with hmem2 | hmem2
    · exact absurd hmem2 (List.not_mem_nil _)
    · exact hT _ hmem2
  refine ⟨?_, ?_, ?_, ?_, ?_⟩
  · rw [harr, hm, ArrayDB.length]
    exact hsz
  · have := modelFold_length ops []
    rw [hm]
    simpa using this
  · intro i hi
    rw [hm] at hi
    rw [harr, hm, ArrayDB.get, get_at_int,
      if_neg (show ¬ ((i : Int) < 0) by omega)]
    rw [if_pos ⟨by omega, by rw [hsz]; exact_mod_cast hi⟩]
    rw [helem i hi, hvt]
    show Except.ok (decode_object
        (some (encode_value ((modelFold [] ops).getD i (Val.vint 0)))) vt)
      = Except.ok (some ((modelFold [] ops).getD i (Val.vint 0)))
    rw [← htype i hi, decode_object_encode_value]
  · intro a st2 h0
    exact arr_pop_empty s a st2 h0
  · intro hlen0
    rw [hm] at hlen0
    rw [harr, hm]
    set P := List.foldl (arrStep s) (ArrayDB.make s k vt emptyStore, emptyStore) ops
      with hP
    have h0 : P.1.size ≠ 0 := by
      rw [hsz]
      exact_mod_cast hlen0
    have hsub : P.1.size - 1 = (((modelFold [] ops).length - 1 : Nat) : Int) := by
      rw [hsz]
      have : 0 < (modelFold [] ops).length := Nat.pos_of_ne_zero hlen0
      omega
    have hga : ArrayDB.get_at s P.2 P.1.region P.1.size (.vint (P.1.size - 1)) P.1.vt
        = .ok (some ((modelFold [] ops).getD ((modelFold [] ops).length - 1)
            (.vint 0))) := by
      have hpos : 0 < (modelFold [] ops).length := Nat.pos_of_ne_zero hlen0
      rw [get_at_int, if_neg (show ¬ (P.1.size - 1 < 0) by rw [hsz]; omega)]
      rw [if_pos ⟨by rw [hsz]; omega, by rw [hsz]; omega⟩]
      rw [hsub, helem ((modelFold [] ops).length - 1) (by omega), hvt]
      show Except.ok (decode_object (some (encode_value
          ((modelFold [] ops).getD ((modelFold [] ops).length - 1) (Val.vint 0)))) vt)
        = Except.ok (some ((modelFold [] ops).getD ((modelFold [] ops).length - 1)
            (Val.vint 0)))
      rw [← htype ((modelFold [] ops).length - 1) (by omega),
        decode_object_encode_value]
    refine ⟨store_put (store_delete P.2 (P.1.region ++ [encKey s (.kint (P.1.size - 1))]))
      (P.1.region ++ [sizeKey s]) (encode_value (.vint (P.1.size - 1))), ?_⟩
    rw [ArrayDB.pop, if_neg h0, hga]
    rfl

/-- Witness for C1: a concrete run (two appends, one pop, one append) under
the v2 scheme on an integer container. -/
theorem c1_sequence_invariant_witness :
    (ArrayDB.length (arrRun .v2 (.kstr [97]) .tint
        [AOp.aput (Val.vint 5), AOp.aput (Val.vint 6), AOp.apop,
          AOp.aput (Val.vint 7)]).1
      = ((modelRun [AOp.aput (Val.vint 5), AOp.aput (Val.vint 6), AOp.apop,
          AOp.aput (Val.vint 7)]).length : Int)) ∧
    ((modelRun [AOp.aput (Val.vint 5), AOp.aput (Val.vint 6), AOp.apop,
        AOp.aput (Val.vint 7)]).length
      + succPops [AOp.aput (Val.vint 5), AOp.aput (Val.vint 6), AOp.apop,
          AOp.aput (Val.vint 7)]
      = appendCount [AOp.aput (Val.vint 5), AOp.aput (Val.vint 6), AOp.apop,
          AOp.aput (Val.vint 7)]) ∧
    (∀ i : Nat, i < (modelRun [AOp.aput (Val.vint 5), AOp.aput (Val.vint 6),
        AOp.apop, AOp.aput (Val.vint 7)]).length →
      ArrayDB.get .v2
          (arrRun .v2 (.kstr [97]) .tint [AOp.aput (Val.vint 5),
            AOp.aput (Val.vint 6), AOp.apop, AOp.aput (Val.vint 7)]).1
          (arrRun .v2 (.kstr [97]) .tint [AOp.aput (Val.vint 5),
            AOp.aput (Val.vint 6), AOp.apop, AOp.aput (Val.vint 7)]).2
          (.vint (i : Int))
        = .ok (some ((modelRun [AOp.aput (Val.vint 5), AOp.aput (Val.vint 6),
            AOp.apop, AOp.aput (Val.vint 7)]).getD i (.vint 0)))) := by
  have h := c1_sequence_invariant .v2 (.kstr [97]) .tint
    [AOp.aput (Val.vint 5), AOp.aput (Val.vint 6), AOp.apop, AOp.aput (Val.vint 7)]
    (fun i _ => encKey_v2_ne_sizeKey _)
    (by
      intro v hv
      simp only [List.mem_cons, List.not_mem_nil, or_false] at hv
      rcases hv with h | h | h | h
      · cases h; rfl
      · cases h; rfl
      · exact AOp.noConfusion h
      · cases h; rfl)
  exact ⟨h.1, h.2.1, h.2.2.1⟩

/-- C1 (counterexample): under the v1 scheme the claim fails as stated — after
0x73697a66 appends of the value 7, `get(0x73697a65)` does not return the
appended value 7 (it returns the array size, whose encoding collided with the
element's key). -/
theorem c1_sequence_counterexample :
    (0x73697a65 : Nat)
      < (modelRun (List.replicate 0x73697a66 (AOp.aput (Val.vint 7)))).length ∧
    (modelRun (List.replicate 0x73697a66 (AOp.aput (Val.vint 7)))).getD
        0x73697a65 (.vint 0) = Val.vint 7 ∧
    ArrayDB.get .v1
        (arrRun .v1 (.kstr [97]) .tint
          (List.replicate 0x73697a66 (AOp.aput (Val.vint 7)))).1
        (arrRun .v1 (.kstr [97]) .tint
          (List.replicate 0x73697a66 (AOp.aput (Val.vint 7)))).2
        (.vint 0x73697a65)
      = .ok (some (Val.vint 0x73697a66)) ∧
    Val.vint (0x73697a66 : Int) ≠ Val.vint 7 := by
  have hmodel : modelRun (List.replicate 0x73697a66 (AOp.aput (Val.vint 7)))
      = List.replicate 0x73697a66 (Val.vint 7) := by
    rw [modelRun, modelFold_replicate]
    rfl
  obtain ⟨hsz, hst, hreg, hvt⟩ :=
    arrRun_puts .v1 (.kstr [97]) .tint (.vint 7) 0x73697a66
  refine ⟨?_, ?_, ?_, ?_⟩
  · rw [hmodel, List.length_replicate]
    omega
  · rw [hmodel]
    exact getD_replicate _ _ _ _ (by omega)
  · rw [ArrayDB.get, get_at_int, if_neg (show ¬ ((0x73697a65 : Int) < 0) by omega)]
    rw [if_pos ⟨by omega, by rw [hsz]; omega⟩]
    have hk : encKey .v1 (.kint (0x73697a65 : Int)) = sizeKey .v1 := by
      show int_to_bytes (0x73697a65 : Int) = _
      rw [int_to_bytes_collision]
      rfl
    rw [hk, hst (by omega), hvt]
    show Except.ok (decode_object
        (some (int_to_bytes ((0x73697a66 : Nat) : Int))) .tint) = _
    rw [decode_object]
    show Except.ok (some (Val.vint
        (bytes_to_int (int_to_bytes ((0x73697a66 : Nat) : Int))))) = _
    rw [bytes_to_int_int_to_bytes]
    have hcast : ((0x73697a66 : Nat) : Int) = (0x73697a66 : Int) := by omega
    rw [hcast]
  · intro h
    cases h

/-- C5 (amended): two Sequence Containers whose `var_key`s have distinct
`encode_key` images (in particular, any two distinct keys of the same logical
kind) never observe each other: a run on the first leaves every key of the
second's region, the second's construction-time length, and all of the
second's reads unchanged. -/
theorem c5_non_aliasing (s : Scheme) (k1 k2 : Key)
    (hk : encode_key k1 ≠ encode_key k2)
    (vt1 vt2 : ValueType) (st : Store) (ops : List AOp) :
    (∀ c : Bytes,
      store_get (List.foldl (arrStep s) (ArrayDB.make s k1 vt1 st, st) ops).2
          (arrRegion s k2 ++ [c])
        = store_get st (arrRegion s k2 ++ [c])) ∧
    ArrayDB.make s k2 vt2
        (List.foldl (arrStep s) (ArrayDB.make s k1 vt1 st, st) ops).2
      = ArrayDB.make s k2 vt2 st ∧
    (∀ index : Val,
      ArrayDB.get s (ArrayDB.make s k2 vt2 st)
          (List.foldl (arrStep s) (ArrayDB.make s k1 vt1 st, st) ops).2 index
        = ArrayDB.get s (ArrayDB.make s k2 vt2 st) st index) := by
  have hrne : arrRegion s k2 ≠ arrRegion s k1 :=
    (arrRegion_ne s k1 k2 hk).symm
  have hlocal : ∀ c : Bytes,
      store_get (List.foldl (arrStep s) (ArrayDB.make s k1 vt1 st, st) ops).2
        (arrRegion s k2 ++ [c]) = store_get st (arrRegion s k2 ++ [c]) := by
    intro c
    apply arrFold_local s ops (ArrayDB.make s k1 vt1 st, st)
    intro c2
    exact region_append_ne _ _ _ _ hrne rfl
  refine ⟨hlocal, ?_, ?_⟩
  · show (⟨arrRegion s k2, vt2, _⟩ : ArrayDB) = ⟨arrRegion s k2, vt2, _⟩
    have : ArrayDB.get_size_from_db s (arrRegion s k2)
        (List.foldl (arrStep s) (ArrayDB.make s k1 vt1 st, st) ops).2
        = ArrayDB.get_size_from_db s (arrRegion s k2) st := by
      rw [ArrayDB.get_size_from_db, ArrayDB.get_size_from_db, hlocal]
    rw [this]
  · intro index
    show ArrayDB.get_at s _ (arrRegion s k2) _ index vt2
      = ArrayDB.get_at s st (arrRegion s k2) _ index vt2
    exact get_at_congr s st _ (arrRegion s k2) _ index vt2 hlocal

/-- Witness for C5: keys 'a' and 'b' under v2, one append on the first. -/
theorem c5_non_aliasing_witness :
    (∀ c : Bytes,
      store_get (List.foldl (arrStep .v2)
            (ArrayDB.make .v2 (.kstr [97]) .tint emptyStore, emptyStore)
            [AOp.aput (Val.vint 7)]).2
          (arrRegion .v2 (.kstr [98]) ++ [c])
        = store_get emptyStore (arrRegion .v2 (.kstr [98]) ++ [c])) ∧
    ArrayDB.make .v2 (.kstr [98]) .tint
        (List.foldl (arrStep .v2)
          (ArrayDB.make .v2 (.kstr [97]) .tint emptyStore, emptyStore)
          [AOp.aput (Val.vint 7)]).2
      = ArrayDB.make .v2 (.kstr [98]) .tint emptyStore := by
  have h := c5_non_aliasing .v2 (.kstr [97]) (.kstr [98]) (by decide)
    .tint .tint emptyStore [AOp.aput (Val.vint 7)]
  exact ⟨h.1, h.2.1⟩

/-- C5 (counterexample): the claim fails as stated — the distinct var_keys
`97 : int` and `"a" : str` encode to the same bytes, so the two containers
share a region: after one append through the first container, the second
reports length 1 and reads the appended value at index 0. -/
theorem c5_counterexample :
    Key.kint 97 ≠ Key.kstr [97] ∧
    (ArrayDB.make .v2 (.kstr [97]) .tint
      (ArrayDB.put .v2 (ArrayDB.make .v2 (.kint 97) .tint emptyStore)
        emptyStore (.vint 7)).2).size = 1 ∧
    ArrayDB.get .v2
        (ArrayDB.make .v2 (.kstr [97]) .tint
          (ArrayDB.put .v2 (ArrayDB.make .v2 (.kint 97) .tint emptyStore)
            emptyStore (.vint 7)).2)
        (ArrayDB.put .v2 (ArrayDB.make .v2 (.kint 97) .tint emptyStore)
          emptyStore (.vint 7)).2
        (.vint 0)
      = .ok (some (.vint 7)) := by
  have hek : encode_key (Key.kint 97) = encode_key (Key.kstr [97]) := by
    show int_to_bytes ((97 : Nat) : Int) = [97]
    exact int_to_bytes_small 97 (by norm_num)
  have hreg : arrRegion .v2 (Key.kstr [97]) = arrRegion .v2 (Key.kint 97) := by
    show [ARRAY_DB_ID, rlp_encode_bytes (encode_key (Key.kstr [97]))]
      = [ARRAY_DB_ID, rlp_encode_bytes (encode_key (Key.kint 97))]
    rw [hek]
  have hST : (ArrayDB.put .v2 (ArrayDB.make .v2 (.kint 97) .tint emptyStore)
      emptyStore (.vint 7)).2
      = store_put
          (store_put emptyStore
            (arrRegion .v2 (Key.kint 97) ++ [encKey .v2 (.kint 0)])
            (encode_value (.vint 7)))
          (arrRegion .v2 (Key.kint 97) ++ [sizeKey .v2])
          (encode_value (.vint 1)) := rfl
  have hkne : encKey .v2 (Key.kint 0) ≠ sizeKey .v2 := encKey_v2_ne_sizeKey _
  have hsize : (ArrayDB.make .v2 (.kstr [97]) .tint
      (ArrayDB.put .v2 (ArrayDB.make .v2 (.kint 97) .tint emptyStore)
        emptyStore (.vint 7)).2).size = 1 := by
    show ArrayDB.get_size_from_db .v2 (arrRegion .v2 (Key.kstr [97])) _ = 1
    rw [ArrayDB.get_size_from_db, hreg, hST, store_get_put_eq]
    show asInt (decode_object (some (int_to_bytes 1)) .tint) = 1
    rw [asInt_decode_int]
  refine ⟨by decide, hsize, ?_⟩
  rw [ArrayDB.get, get_at_int, if_neg (show ¬ ((0 : Int) < 0) by omega)]
  rw [if_pos ⟨le_refl 0, by rw [hsize]; omega⟩]
  show Except.ok (decode_object (store_get
      (ArrayDB.put .v2 (ArrayDB.make .v2 (.kint 97) .tint emptyStore)
        emptyStore (.vint 7)).2
      (arrRegion .v2 (Key.kstr [97]) ++ [encKey .v2 (Key.kint 0)])) .tint)
    = Except.ok (some (Val.vint 7))
  rw [hreg, hST,
    store_get_put_ne _ _ _ _ (region_key_ne _ _ _ hkne),
    store_get_put_eq]
  show Except.ok (decode_object (some (encode_value (Val.vint 7)))
    (typeOfVal (Val.vint 7))) = Except.ok (some (Val.vint 7))
  rw [decode_object_encode_value]

/-- `__setitem__` on a boolean index (int-like in Python) writes at 0/1. -/
theorem setItem_bool (s : Scheme) (a : ArrayDB) (st : Store) (b : Bool) (v : Val) :
    ArrayDB.setItem s a st (.vbool b) v =
      if 0 ≤ ((if b then (1 : Int) else 0)) ∧ ((if b then (1 : Int) else 0)) < a.size
      then .ok (ArrayDB.put_internal s a st (if b then 1 else 0) v)
      else .error .outOfIndex := by
  rw [ArrayDB.setItem, if_neg (by simp [isIntLike])]
  show (let j := if intOf (Val.vbool b) < 0
          then intOf (Val.vbool b) + a.size else intOf (Val.vbool b)
        if 0 ≤ j ∧ j < a.size then _ else _) = _
  have h2 : intOf (Val.vbool b) = if b then 1 else 0 := rfl
  simp only [h2]
  rw [if_neg (show ¬ ((if b then (1 : Int) else 0) < 0) by cases b <;> norm_num)]

/-- C9 (amended): the cached size always equals the integer decoded from the
reserved size key — established at construction, preserved by every `put` and
`pop`, and preserved by `set(index, value)` whenever the written index's
encoded key is not the reserved size key (always true under v2; true under v1
unless the resolved index is 0x73697a65); and `length()` is exactly the
cached size, with no store read. -/
theorem c9_cached_size (s : Scheme) :
    (∀ (k : Key) (vt : ValueType) (st : Store),
      (ArrayDB.make s k vt st).size
        = ArrayDB.get_size_from_db s (ArrayDB.make s k vt st).region st) ∧
    (∀ a : ArrayDB, ArrayDB.length a = a.size) ∧
    (∀ (a : ArrayDB) (st : Store) (op : AOp),
      a.size = ArrayDB.get_size_from_db s a.region st →
      (arrStep s (a, st) op).1.size
        = ArrayDB.get_size_from_db s (arrStep s (a, st) op).1.region
            (arrStep s (a, st) op).2) ∧
    (∀ (a : ArrayDB) (st st2 : Store) (index : Val) (v : Val),
      ArrayDB.setItem s a st index v = .ok st2 →
      encKey s (.kint (if intOf index < 0 then intOf index + a.size else intOf index))
          ≠ sizeKey s →
      a.size = ArrayDB.get_size_from_db s a.region st →
      a.size = ArrayDB.get_size_from_db s a.region st2) := by
  refine ⟨fun k vt st => rfl, fun a => rfl, ?_, ?_⟩
  · intro a st op hInv
    cases op with
    | aput v =>
      have hput : arrStep s (a, st) (.aput v) =
          ({ a with size := a.size + 1 },
            store_put
              (store_put st (a.region ++ [encKey s (.kint a.size)]) (encode_value v))
              (a.region ++ [sizeKey s])
              (encode_value (.vint (a.size + 1)))) := rfl
      rw [hput]
      show a.size + 1 = ArrayDB.get_size_from_db s a.region _
      rw [ArrayDB.get_size_from_db, store_get_put_eq]
      show _ = asInt (decode_object (some (int_to_bytes (a.size + 1))) .tint)
      rw [asInt_decode_int]
    | apop =>
      rcases arrStep_pop_cases s a st with h | h
      · rw [h]
        exact hInv
      · rw [h]
        show a.size - 1 = ArrayDB.get_size_from_db s a.region _
        rw [ArrayDB.get_size_from_db, store_get_put_eq]
        show _ = asInt (decode_object (some (int_to_bytes (a.size - 1))) .tint)
        rw [asInt_decode_int]
  · intro a st st2 index v hset hk hInv
    cases index with
    | vint i =>
      rw [setItem_int] at hset
      by_cases hj : 0 ≤ (if i < 0 then i + a.size else i) ∧
          (if i < 0 then i + a.size else i) < a.size
      · rw [if_pos hj] at hset
        cases hset
        have hk2 : encKey s (.kint (if i < 0 then i + a.size else i))
            ≠ sizeKey s := hk
        rw [ArrayDB.put_internal, ArrayDB.get_size_from_db,
          store_get_put_ne _ _ _ _ (region_key_ne _ _ _ (Ne.symm hk2))]
        exact hInv
      · rw [if_neg hj] at hset
        cases hset
    | vbool b =>
      rw [setItem_bool] at hset
      by_cases hj : 0 ≤ ((if b then (1 : Int) else 0)) ∧
          ((if b then (1 : Int) else 0)) < a.size
      · rw [if_pos hj] at hset
        cases hset
        have hk2 : encKey s (.kint (if b then 1 else 0)) ≠ sizeKey s := by
          have : (if intOf (Val.vbool b) < 0
              then intOf (Val.vbool b) + a.size else intOf (Val.vbool b))
              = (if b then (1 : Int) else 0) := by
            cases b <;> norm_num [intOf]
          rw [this] at hk
          exact hk
        rw [ArrayDB.put_internal, ArrayDB.get_size_from_db,
          store_get_put_ne _ _ _ _ (region_key_ne _ _ _ (Ne.symm hk2))]
        exact hInv
      · rw [if_neg hj] at hset
        cases hset
    | vstr c =>
      rw [setItem_non_int _ _ _ _ _ (by rfl)] at hset
      cases hset
    | vaddr c =>
      rw [setItem_non_int _ _ _ _ _ (by rfl)] at hset
      cases hset
    | vbytes c =>
      rw [setItem_non_int _ _ _ _ _ (by rfl)] at hset
      cases hset

/-- Witness for C9: construction over the empty store, one append step, and a
consistency-preserving in-range `set` under v2. -/
theorem c9_cached_size_witness :
    ((ArrayDB.make .v2 (.kstr [97]) .tint emptyStore).size
      = ArrayDB.get_size_from_db .v2
          (ArrayDB.make .v2 (.kstr [97]) .tint emptyStore).region emptyStore) ∧
    ((arrStep .v2 (ArrayDB.make .v2 (.kstr [97]) .tint emptyStore, emptyStore)
        (.aput (.vint 3))).1.size
      = ArrayDB.get_size_from_db .v2
          (arrStep .v2 (ArrayDB.make .v2 (.kstr [97]) .tint emptyStore, emptyStore)
            (.aput (.vint 3))).1.region
          (arrStep .v2 (ArrayDB.make .v2 (.kstr [97]) .tint emptyStore, emptyStore)
            (.aput (.vint 3))).2) ∧
    ((⟨arrRegion .v2 (.kstr [97]), .tint, 1⟩ : ArrayDB).size
      = ArrayDB.get_size_from_db .v2 (arrRegion .v2 (.kstr [97]))
          (store_put
            (store_put emptyStore (arrRegion .v2 (.kstr [97]) ++ [sizeKey .v2])
              (int_to_bytes 1))
            (arrRegion .v2 (.kstr [97]) ++ [encKey .v2 (.kint 0)])
            (encode_value (.vint 4)))) := by
  have h := c9_cached_size .v2
  refine ⟨h.1 (.kstr [97]) .tint emptyStore, ?_, ?_⟩
  · exact h.2.2.1 (ArrayDB.make .v2 (.kstr [97]) .tint emptyStore) emptyStore
      (.aput (.vint 3)) (h.1 (.kstr [97]) .tint emptyStore)
  · refine h.2.2.2 (⟨arrRegion .v2 (.kstr [97]), .tint, 1⟩ : ArrayDB)
      (store_put emptyStore (arrRegion .v2 (.kstr [97]) ++ [sizeKey .v2])
        (int_to_bytes 1))
      _ (.vint 0) (.vint 4) ?_ (encKey_v2_ne_sizeKey _) ?_
    · rw [setItem_int, if_pos ⟨by norm_num, by norm_num⟩]
      rfl
    · show (1 : Int) = asInt (decode_object (some (int_to_bytes 1)) .tint)
      rw [asInt_decode_int]

/-- C9 (counterexample): the claim fails as stated — under v1, from a
consistent state of size 0x73697a66, `set(0x73697a65, 5)` overwrites the
persisted size (the index key collides with the reserved size key), leaving
the cached size different from the decoded persisted size. -/
theorem c9_cached_size_counterexample :
    ((⟨arrRegion .v1 (.kstr [97]), .tint, 0x73697a66⟩ : ArrayDB).size
      = ArrayDB.get_size_from_db .v1 (arrRegion .v1 (.kstr [97]))
          (store_put emptyStore (arrRegion .v1 (.kstr [97]) ++ [sizeKey .v1])
            (int_to_bytes 0x73697a66))) ∧
    ArrayDB.setItem .v1 (⟨arrRegion .v1 (.kstr [97]), .tint, 0x73697a66⟩ : ArrayDB)
        (store_put emptyStore (arrRegion .v1 (.kstr [97]) ++ [sizeKey .v1])
          (int_to_bytes 0x73697a66))
        (.vint 0x73697a65) (.vint 5)
      = .ok (store_put
          (store_put emptyStore (arrRegion .v1 (.kstr [97]) ++ [sizeKey .v1])
            (int_to_bytes 0x73697a66))
          (arrRegion .v1 (.kstr [97]) ++ [encKey .v1 (.kint 0x73697a65)])
          (encode_value (.vint 5))) ∧
    ArrayDB.get_size_from_db .v1 (arrRegion .v1 (.kstr [97]))
        (store_put
          (store_put emptyStore (arrRegion .v1 (.kstr [97]) ++ [sizeKey .v1])
            (int_to_bytes 0x73697a66))
          (arrRegion .v1 (.kstr [97]) ++ [encKey .v1 (.kint 0x73697a65)])
          (encode_value (.vint 5)))
      = 5 ∧
    ((⟨arrRegion .v1 (.kstr [97]), .tint, 0x73697a66⟩ : ArrayDB).size ≠ 5) := by
  have hk : encKey .v1 (.kint (0x73697a65 : Int)) = sizeKey .v1 := by
    show int_to_bytes (0x73697a65 : Int) = _
    rw [int_to_bytes_collision]
    rfl
  refine ⟨?_, ?_, ?_, by decide⟩
  · show (0x73697a66 : Int) = ArrayDB.get_size_from_db .v1 _ _
    rw [ArrayDB.get_size_from_db, store_get_put_eq]
    show _ = asInt (decode_object (some (int_to_bytes 0x73697a66)) .tint)
    rw [asInt_decode_int]
  · rw [setItem_int, if_pos ⟨by decide, by decide⟩]
    rfl
  · rw [ArrayDB.get_size_from_db, hk, store_get_put_eq]
    show asInt (decode_object (some (int_to_bytes 5)) .tint) = 5
    rw [asInt_decode_int]

end IconDB
